import Mathlib

/-!
# jt: message-passing channels (`jt.hpp`)

A shallow embedding of the two channel types of `jt.hpp`:

* `jt::mpsc`, one consumer queue fed by any number of producer handles, with a
  configurable insertion strategy;
* `jt::spmc`, one producer holding a registry of consumers, every consumer
  with a private queue.

A `std::deque` is a `List` whose head is the front of the deque.  A call is
one atomic step: every method of the source runs its body under the lock of the
object it mutates, so a sequential interleaving of complete calls is what the
embedding describes.  `wait` is embedded with an explicit result that tells a
call that stays blocked from one that returns a value.
-/

namespace jt

/-! ## `std::deque` operations used by the source -/

namespace deque

/-- `std::deque::empty`. -/
def empty {α : Type} (q : List α) : Bool := q.isEmpty

/-- `std::deque::front`; `none` stands for the undefined behaviour of calling
it on an empty container. -/
def front {α : Type} : List α → Option α
  | [] => none
  | x :: _ => some x

/-- `std::deque::pop_front`; `none` stands for the undefined behaviour of
calling it on an empty container. -/
def pop_front {α : Type} : List α → Option (List α)
  | [] => none
  | _ :: q => some q

/-- `std::deque::push_back`. -/
def push_back {α : Type} (q : List α) (x : α) : List α := q ++ [x]

/-- `std::deque::push_front`. -/
def push_front {α : Type} (q : List α) (x : α) : List α := x :: q

/-- `std::deque::emplace_front`. -/
def emplace_front {α : Type} (q : List α) (x : α) : List α := x :: q

end deque

/-- `std::back_insert_iterator`: assignment through it calls `push_back`. -/
def back_insert_iterator {α : Type} (q : List α) (x : α) : List α := deque.push_back q x

/-- `std::front_insert_iterator`: assignment through it calls `push_front`. -/
def front_insert_iterator {α : Type} (q : List α) (x : α) : List α := deque.push_front q x

/-- `template<typename T> using fifo = std::back_insert_iterator<T>;` -/
def fifo {α : Type} : List α → α → List α := back_insert_iterator

/-- `template<typename T> using lifo = std::front_insert_iterator<T>;` -/
def lifo {α : Type} : List α → α → List α := front_insert_iterator

/-- What a call of `wait` does: it stays suspended in `cv_.wait` (`blocked`),
it returns `val` and leaves the consumer as `self` (`value`), or it runs
`front()` or `pop_front()` on an empty container (`undefined`). -/
inductive wait_result (α : Type) (σ : Type) where
  | blocked : wait_result α σ
  | value (val : α) (self : σ) : wait_result α σ
  | undefined : wait_result α σ
deriving DecidableEq, Repr

/-! ## `jt::mpsc` -/

namespace mpsc

/-- `mpsc::consumer`: the queue; the mutex and the condition variable carry no
data. -/
structure consumer (α : Type) where
  queue_ : List α
deriving DecidableEq, Repr

/-- `mpsc::consumer::consumer()`. -/
def consumer.new {α : Type} : consumer α := ⟨[]⟩

/-- `mpsc::consumer::wait`: `cv_.wait(lock, [this] { return !queue_.empty(); })`
lets the call through only on a non-empty queue; then `front()` is read and
`pop_front()` run. -/
def consumer.wait {α : Type} (self : consumer α) : wait_result α (consumer α) :=
  if !deque.empty self.queue_ then
    match deque.front self.queue_, deque.pop_front self.queue_ with
    | some val, some q => wait_result.value val ⟨q⟩
    | _, _ => wait_result.undefined
  else wait_result.blocked

/-- `mpsc::consumer::enqueue`: `strat = std::move(val)` on an insert iterator
over `queue_`. -/
def consumer.enqueue {α : Type} (insertion_strategy : List α → α → List α)
    (self : consumer α) (val : α) : consumer α :=
  ⟨insertion_strategy self.queue_ val⟩

end mpsc

/-- `struct mpsc`: the channel owns its one consumer. -/
structure mpsc (α : Type) where
  consumer_ : mpsc.consumer α
deriving DecidableEq, Repr

namespace mpsc

/-- `mpsc::producer`: `channel_` points at the `consumer_` member of the
channel `tx()` was called on, the only consumer a channel has; the handle
carries no other data. -/
structure producer where
  channel_ : Unit
deriving DecidableEq, Repr

/-- A channel as `jt::mpsc<value> ch;` declares it. -/
def new {α : Type} : mpsc α := ⟨consumer.new⟩

/-- `mpsc::rx`. -/
def rx {α : Type} (self : mpsc α) : consumer α := self.consumer_

/-- `mpsc::tx`. -/
def tx {α : Type} (_self : mpsc α) : producer := ⟨()⟩

/-- `mpsc::producer::dispatch`: `channel_->enqueue(std::move(val))`, written
as the effect on the channel the handle points into. -/
def producer.dispatch {α : Type} (insertion_strategy : List α → α → List α)
    (_self : producer) (val : α) (ch : mpsc α) : mpsc α :=
  ⟨ch.consumer_.enqueue insertion_strategy val⟩

/-- One call on a channel: a send through the handle that the `handle`-th call
of `tx()` returned, or a `wait` on `rx()`. -/
inductive call (α : Type) where
  | dispatch (handle : Nat) (val : α) : call α
  | wait : call α
deriving DecidableEq, Repr

/-- Runs the calls in order on `ch`.  The first component lists what the
`wait` calls returned, in call order, `none` for a call that stays blocked; the
second is the channel afterwards. -/
def exec {α : Type} (insertion_strategy : List α → α → List α) :
    mpsc α → List (call α) → List (Option α) × mpsc α
  | ch, [] => ([], ch)
  | ch, call.dispatch _ val :: rest =>
    exec insertion_strategy ((tx ch).dispatch insertion_strategy val ch) rest
  | ch, call.wait :: rest =>
    match (rx ch).wait with
    | wait_result.value val c =>
      let r := exec insertion_strategy ⟨c⟩ rest
      (some val :: r.1, r.2)
    | _ =>
      let r := exec insertion_strategy ch rest
      (none :: r.1, r.2)

/-- The values sent by the calls, in call order. -/
def sent {α : Type} : List (call α) → List α
  | [] => []
  | call.dispatch _ val :: rest => val :: sent rest
  | call.wait :: rest => sent rest

/-- The values that the `wait` calls of a run returned. -/
def received {α : Type} (outputs : List (Option α)) : List α :=
  outputs.filterMap id

/-- The calls that send `vals` in order, all through one handle. -/
def send_all {α : Type} (vals : List α) : List (call α) :=
  vals.map (call.dispatch 0)

/-- `n` successive `wait` calls. -/
def wait_all {α : Type} (n : Nat) : List (call α) :=
  List.replicate n call.wait

/-- The order the specification gives a last-in-first-out channel, written from
its words and not from the code: the pending values are kept oldest first, a
send makes its value the most recent pending one, and a receive that finds a
pending value returns the most recent one and takes it out of the pending
values.  The result lists the values the receives return. -/
def spec_stack_order {α : Type} : List α → List (call α) → List α
  | _, [] => []
  | pending, call.dispatch _ val :: rest => spec_stack_order (pending ++ [val]) rest
  | pending, call.wait :: rest =>
    match pending.getLast? with
    | some val => val :: spec_stack_order pending.dropLast rest
    | none => spec_stack_order pending rest

end mpsc

/-! ## `jt::spmc` -/

namespace spmc

/-- `spmc::consumer`: the private queue.  A consumer object is named by its
identity, a number that stands for its address; the back pointer `producer_`
is not stored, a channel having one producer. -/
structure consumer (α : Type) where
  queue_ : List α
deriving DecidableEq, Repr

/-- `spmc::consumer::wait`: the same body as `mpsc::consumer::wait`. -/
def consumer.wait {α : Type} (self : consumer α) : wait_result α (consumer α) :=
  if !deque.empty self.queue_ then
    match deque.front self.queue_, deque.pop_front self.queue_ with
    | some val, some q => wait_result.value val ⟨q⟩
    | _, _ => wait_result.undefined
  else wait_result.blocked

/-- `spmc::consumer::enqueue`: `queue_.emplace_front(val)`. -/
def consumer.enqueue {α : Type} (self : consumer α) (val : α) : consumer α :=
  ⟨deque.emplace_front self.queue_ val⟩

/-- `std::remove(first, last, value)` on a list of pointers: the entries that
differ from `value` are shifted to the front in their order, the positions
behind them keep what they held, and the position of the new logical end is
returned with the list. -/
def std_remove (l : List Nat) (value : Nat) : List Nat × Nat :=
  let kept := l.filter (fun x => x != value)
  (kept ++ l.drop kept.length, kept.length)

/-- `std::list::erase(first, last)` by positions. -/
def list_erase (l : List Nat) (first last : Nat) : List Nat :=
  l.take first ++ l.drop last

/-- `spmc::producer`: the registry `consumers_`, a `std::list<consumer *>`. -/
structure producer where
  consumers_ : List Nat
deriving DecidableEq, Repr

/-- `spmc::producer::producer()`. -/
def producer.new : producer := ⟨[]⟩

/-- `spmc::producer::remove`: `std::remove` over the registry, then `erase`
from the iterator it returned to `end()`. -/
def producer.remove (self : producer) (sub : Nat) : producer :=
  let it := std_remove self.consumers_ sub
  ⟨list_erase it.1 it.2 it.1.length⟩

/-- `spmc::producer::adopt`: `consumers_.push_back(&cons)`. -/
def producer.adopt (self : producer) (cons : Nat) : producer :=
  ⟨self.consumers_ ++ [cons]⟩

end spmc

/-- `struct spmc` with the consumer objects built so far.  `producer_` is the
producer the channel allocates; `objects` holds the consumer objects in the
order they were constructed, the position being the identity of the object,
`none` once the object is destroyed. -/
structure spmc (α : Type) where
  producer_ : spmc.producer
  objects : List (Option (spmc.consumer α))
deriving DecidableEq, Repr

namespace spmc

/-- A channel as `jt::spmc<value> bus{};` declares it. -/
def new {α : Type} : spmc α := ⟨producer.new, []⟩

/-- `spmc::tx`. -/
def tx {α : Type} (self : spmc α) : producer := self.producer_

/-- The consumer object behind a pointer, `none` when no live object is
there. -/
def deref {α : Type} (s : spmc α) (c : Nat) : Option (consumer α) :=
  (s.objects[c]?).getD none

/-- Writes a consumer object back behind a pointer. -/
def assign {α : Type} (s : spmc α) (c : Nat) (obj : Option (consumer α)) : spmc α :=
  { s with objects := s.objects.set c obj }

/-- `c->enqueue(value(val))` through a pointer of the registry. -/
def enqueue_at {α : Type} (val : α) (s : spmc α) (c : Nat) : spmc α :=
  match deref s c with
  | some obj => assign s c (some (obj.enqueue val))
  | none => s

/-- `spmc::producer::dispatch`: `for (consumer *c : consumers_) c->enqueue(value(val));` -/
def producer.dispatch {α : Type} (val : α) (s : spmc α) : spmc α :=
  s.producer_.consumers_.foldl (enqueue_at val) s

/-- `spmc::consumer::consumer(producer *)`: a new object with an empty queue,
then `producer_->adopt(*this)`.  Returns the identity of the new object. -/
def consumer.construct {α : Type} (s : spmc α) : Nat × spmc α :=
  let this := s.objects.length
  (this, { producer_ := s.producer_.adopt this, objects := s.objects ++ [some ⟨[]⟩] })

/-- `spmc::consumer::consumer(const consumer &other)`: `queue_ = other.queue_`,
then `producer_->adopt(*this)`; `none` when `other` is no live object. -/
def consumer.copy {α : Type} (s : spmc α) (other : Nat) : Option (Nat × spmc α) :=
  match deref s other with
  | some o =>
    let this := s.objects.length
    some (this, { producer_ := s.producer_.adopt this,
                  objects := s.objects ++ [some ⟨o.queue_⟩] })
  | none => none

/-- `spmc::consumer::consumer(const consumer &&other)`: only `producer_` is
taken from `other`, the queue of the new object is default-constructed; then
`producer_->adopt(*this)`. -/
def consumer.move {α : Type} (s : spmc α) (_other : Nat) : Nat × spmc α :=
  let this := s.objects.length
  (this, { producer_ := s.producer_.adopt this, objects := s.objects ++ [some ⟨[]⟩] })

/-- `spmc::consumer::~consumer`: `producer_->remove(this)`, after which the
object is gone. -/
def consumer.destroy {α : Type} (s : spmc α) (this : Nat) : spmc α :=
  { producer_ := s.producer_.remove this, objects := s.objects.set this none }

/-- `spmc::rx`: `consumer con = consumer(producer_); producer_->adopt(con);
return consumer(std::move(con));`, the local `con` being destroyed after the
returned object is built.  Returns the identity of the returned consumer. -/
def rx {α : Type} (s : spmc α) : Nat × spmc α :=
  let con := consumer.construct s
  let s2 : spmc α := { con.2 with producer_ := con.2.producer_.adopt con.1 }
  let ret := consumer.move s2 con.1
  (ret.1, consumer.destroy ret.2 con.1)

/-- `spmc::consumer::wait` on the object behind `c`: the value returned, `none`
when the call stays blocked, and the channel afterwards.  With no live object
behind `c` there is no call to make and the channel is left as it is. -/
def wait {α : Type} (s : spmc α) (c : Nat) : Option α × spmc α :=
  match deref s c with
  | some obj =>
    match obj.wait with
    | wait_result.value val self => (some val, assign s c (some self))
    | _ => (none, s)
  | none => (none, s)

/-- One complete call on a broadcast channel. -/
inductive call (α : Type) where
  | rx : call α
  | destroy (c : Nat) : call α
  | dispatch (val : α) : call α
  | wait (c : Nat) : call α
  | copy (other : Nat) : call α
  | move (other : Nat) : call α
deriving DecidableEq, Repr

/-- The channel after one call.  Copying or moving from a pointer with no
live object behind it is not a call a program can make and is skipped. -/
def step {α : Type} (s : spmc α) : call α → spmc α
  | call.rx => (rx s).2
  | call.destroy c => consumer.destroy s c
  | call.dispatch val => producer.dispatch val s
  | call.wait c => (wait s c).2
  | call.copy other =>
    match consumer.copy s other with
    | some r => r.2
    | none => s
  | call.move other =>
    match deref s other with
    | some _ => (consumer.move s other).2
    | none => s

/-- The channel after the calls, run in order. -/
def run {α : Type} (s : spmc α) (ops : List (call α)) : spmc α :=
  ops.foldl step s

/-- The values broadcast by the calls, in call order. -/
def broadcast_values {α : Type} : List (call α) → List α
  | [] => []
  | call.dispatch val :: rest => val :: broadcast_values rest
  | _ :: rest => broadcast_values rest

/-- The number of values pending in one object slot. -/
def backlog {α : Type} : Option (consumer α) → Nat
  | some obj => obj.queue_.length
  | none => 0

/-- The number of values pending over all live consumers. -/
def pending {α : Type} (s : spmc α) : Nat :=
  (s.objects.map backlog).sum

/-- `n` successive `wait` calls on the object behind `c`: the values returned,
`none` for a call that stays blocked, and the channel afterwards. -/
def wait_n {α : Type} : Nat → spmc α → Nat → List (Option α) × spmc α
  | 0, s, _ => ([], s)
  | n + 1, s, c =>
    let r := wait s c
    let rs := wait_n n r.2 c
    (r.1 :: rs.1, rs.2)

/-- The channel after `vals` are broadcast in order. -/
def dispatch_all {α : Type} (vals : List α) (s : spmc α) : spmc α :=
  vals.foldl (fun t val => producer.dispatch val t) s

/-- The calls without the `wait` calls on the object behind `a`. -/
def drop_waits {α : Type} (a : Nat) : List (call α) → List (call α)
  | [] => []
  | call.wait c :: rest =>
    if c = a then drop_waits a rest else call.wait c :: drop_waits a rest
  | op :: rest => op :: drop_waits a rest

/-- Two channels that look the same from the object behind `b`: the same
registry, the same objects constructed, the same objects alive, and the same
object behind `b`. -/
def agree_on {α : Type} (b : Nat) (t u : spmc α) : Prop :=
  t.producer_ = u.producer_ ∧ t.objects.length = u.objects.length
    ∧ (∀ d, (deref t d).isSome = (deref u d).isSome) ∧ deref t b = deref u b

/-- The registry is well formed: no pointer occurs twice, and a pointer is in
the registry exactly when a live consumer object is behind it. -/
def wf {α : Type} (s : spmc α) : Prop :=
  s.producer_.consumers_.Nodup ∧ ∀ c, c ∈ s.producer_.consumers_ ↔ (deref s c).isSome = true

/-- Every pointer of the registry is the identity of an object constructed so
far, so the next object constructed is not in the registry. -/
def allocated {α : Type} (s : spmc α) : Prop :=
  ∀ c ∈ s.producer_.consumers_, c < s.objects.length

instance allocated_decidable {α : Type} (s : spmc α) : Decidable (allocated s) := by
  unfold allocated
  infer_instance

end spmc

/-! ## Lock events

Every method of the source takes its locks with `std::lock_guard` or
`std::unique_lock`, so the lock events of a call are fixed by the scopes of
these guards. -/

/-- A mutex of the source: `spmc::producer::lock_` (the registry lock),
`spmc::consumer::lock_` of the consumer behind a pointer, and
`mpsc::consumer::queue_lock_`; the last two guard a buffer. -/
inductive mutex where
  | registry : mutex
  | buffer (c : Nat) : mutex
  | queue : mutex
deriving DecidableEq, Repr

/-- The mutexes that guard a consumer's buffer. -/
def mutex.is_buffer : mutex → Bool
  | mutex.registry => false
  | mutex.buffer _ => true
  | mutex.queue => true

/-- A thread takes or gives back a mutex. -/
inductive lock_event where
  | acquire (m : mutex) : lock_event
  | release (m : mutex) : lock_event
deriving DecidableEq, Repr

/-- `cv_.wait(lock, pred)` entered with `m` held: each of the `wakeups` times
the predicate is found false the mutex is given back for the sleep and taken
again on wake-up. -/
def cv_wait (m : mutex) : Nat → List lock_event
  | 0 => []
  | wakeups + 1 => lock_event.release m :: lock_event.acquire m :: cv_wait m wakeups

/-- `mpsc::consumer::wait`: `unique_lock lock(queue_lock_)`, `cv_.wait`, then
the guard goes out of scope. -/
def mpsc.consumer.wait_events (wakeups : Nat) : List lock_event :=
  lock_event.acquire mutex.queue :: cv_wait mutex.queue wakeups
    ++ [lock_event.release mutex.queue]

/-- `mpsc::consumer::enqueue`: the `lock_guard` on `queue_lock_` lives in the
inner block; `notify_one` runs with no lock held. -/
def mpsc.consumer.enqueue_events : List lock_event :=
  [lock_event.acquire mutex.queue, lock_event.release mutex.queue]

/-- `mpsc::producer::dispatch`: the call of `enqueue`. -/
def mpsc.producer.dispatch_events : List lock_event :=
  mpsc.consumer.enqueue_events

/-- `spmc::consumer::wait` on the consumer behind `c`. -/
def spmc.consumer.wait_events (c : Nat) (wakeups : Nat) : List lock_event :=
  lock_event.acquire (mutex.buffer c) :: cv_wait (mutex.buffer c) wakeups
    ++ [lock_event.release (mutex.buffer c)]

/-- `spmc::consumer::enqueue` on the consumer behind `c`: the `lock_guard` on
`lock_` lives in the inner block. -/
def spmc.consumer.enqueue_events (c : Nat) : List lock_event :=
  [lock_event.acquire (mutex.buffer c), lock_event.release (mutex.buffer c)]

/-- `spmc::producer::remove`: one `lock_guard` on the registry lock. -/
def spmc.producer.remove_events : List lock_event :=
  [lock_event.acquire mutex.registry, lock_event.release mutex.registry]

/-- `spmc::producer::adopt`: one `lock_guard` on the registry lock. -/
def spmc.producer.adopt_events : List lock_event :=
  [lock_event.acquire mutex.registry, lock_event.release mutex.registry]

/-- `spmc::producer::dispatch` over the registry `consumers_`: the registry
lock is held over the loop, each turn of which calls `enqueue`. -/
def spmc.producer.dispatch_events (consumers_ : List Nat) : List lock_event :=
  lock_event.acquire mutex.registry
    :: (consumers_.map spmc.consumer.enqueue_events).flatten
    ++ [lock_event.release mutex.registry]

/-- `spmc::consumer::consumer(producer *)`: the call of `adopt`. -/
def spmc.consumer.construct_events : List lock_event := spmc.producer.adopt_events

/-- `spmc::consumer::consumer(const consumer &)`: the queue is copied with no
lock taken, then `adopt` is called. -/
def spmc.consumer.copy_events : List lock_event := spmc.producer.adopt_events

/-- `spmc::consumer::consumer(const consumer &&)`: the call of `adopt`. -/
def spmc.consumer.move_events : List lock_event := spmc.producer.adopt_events

/-- `spmc::consumer::~consumer`: the call of `remove`. -/
def spmc.consumer.destroy_events : List lock_event := spmc.producer.remove_events

/-- `spmc::rx`: construction of `con`, `adopt(con)`, move construction of the
returned object, destruction of `con`. -/
def spmc.rx_events : List lock_event :=
  spmc.consumer.construct_events ++ spmc.producer.adopt_events
    ++ spmc.consumer.move_events ++ spmc.consumer.destroy_events

/-- The channel operations that take a lock. -/
inductive operation where
  | spmc_adopt : operation
  | spmc_remove : operation
  | spmc_dispatch (consumers_ : List Nat) : operation
  | spmc_construct : operation
  | spmc_copy : operation
  | spmc_move : operation
  | spmc_destroy : operation
  | spmc_enqueue (c : Nat) : operation
  | spmc_wait (c : Nat) (wakeups : Nat) : operation
  | spmc_rx : operation
  | mpsc_enqueue : operation
  | mpsc_dispatch : operation
  | mpsc_wait (wakeups : Nat) : operation
deriving DecidableEq, Repr

/-- The lock events of an operation, in program order. -/
def operation.events : operation → List lock_event
  | operation.spmc_adopt => spmc.producer.adopt_events
  | operation.spmc_remove => spmc.producer.remove_events
  | operation.spmc_dispatch consumers_ => spmc.producer.dispatch_events consumers_
  | operation.spmc_construct => spmc.consumer.construct_events
  | operation.spmc_copy => spmc.consumer.copy_events
  | operation.spmc_move => spmc.consumer.move_events
  | operation.spmc_destroy => spmc.consumer.destroy_events
  | operation.spmc_enqueue c => spmc.consumer.enqueue_events c
  | operation.spmc_wait c wakeups => spmc.consumer.wait_events c wakeups
  | operation.spmc_rx => spmc.rx_events
  | operation.mpsc_enqueue => mpsc.consumer.enqueue_events
  | operation.mpsc_dispatch => mpsc.producer.dispatch_events
  | operation.mpsc_wait wakeups => mpsc.consumer.wait_events wakeups

/-- The sets of mutexes a thread holds along its events, `held` at the start:
one set before each event and one at the end. -/
def held_states : List mutex → List lock_event → List (List mutex)
  | held, [] => [held]
  | held, lock_event.acquire m :: rest => held :: held_states (m :: held) rest
  | held, lock_event.release m :: rest => held :: held_states (held.erase m) rest

/-- The pairs `(h, m)` such that the thread takes `m` while it holds `h`. -/
def lock_edges : List mutex → List lock_event → List (mutex × mutex)
  | _, [] => []
  | held, lock_event.acquire m :: rest =>
    held.map (fun h => (h, m)) ++ lock_edges (m :: held) rest
  | held, lock_event.release m :: rest => lock_edges (held.erase m) rest

/-- A cycle of lock waits: a non-empty ring of threads, each holding the first
mutex of its pair and waiting for the second, which the next thread holds. -/
def lock_cycle (es : List (mutex × mutex)) : Prop :=
  es ≠ [] ∧ List.Chain' (fun e f => e.2 = f.1) es
    ∧ es.getLast?.map Prod.snd = es.head?.map Prod.fst

/-! ## Facts about `jt::mpsc` -/

namespace mpsc

theorem wait_nil {α : Type} : (consumer.wait (⟨[]⟩ : consumer α)) = wait_result.blocked := rfl

theorem wait_cons {α : Type} (x : α) (q : List α) :
    (consumer.wait (⟨x :: q⟩ : consumer α)) = wait_result.value x ⟨q⟩ := rfl

theorem exec_nil {α : Type} (st : List α → α → List α) (ch : mpsc α) :
    exec st ch [] = ([], ch) := rfl

theorem exec_dispatch {α : Type} (st : List α → α → List α) (q : List α) (h : Nat) (v : α)
    (rest : List (call α)) :
    exec st ⟨⟨q⟩⟩ (call.dispatch h v :: rest) = exec st ⟨⟨st q v⟩⟩ rest := rfl

theorem exec_wait_nil {α : Type} (st : List α → α → List α) (rest : List (call α)) :
    exec st ⟨⟨[]⟩⟩ (call.wait :: rest)
      = (none :: (exec st ⟨⟨[]⟩⟩ rest).1, (exec st ⟨⟨[]⟩⟩ rest).2) := rfl

theorem exec_wait_cons {α : Type} (st : List α → α → List α) (x : α) (q : List α)
    (rest : List (call α)) :
    exec st ⟨⟨x :: q⟩⟩ (call.wait :: rest)
      = (some x :: (exec st ⟨⟨q⟩⟩ rest).1, (exec st ⟨⟨q⟩⟩ rest).2) := rfl

/-- From any queue `q`, a run under `fifo` whose `wait` calls all return hands
out a prefix of `q` followed by the values sent. -/
theorem exec_fifo_take {α : Type} (ops : List (call α)) :
    ∀ q : List α, (∀ r ∈ (exec fifo ⟨⟨q⟩⟩ ops).1, r ≠ none) →
      (exec fifo ⟨⟨q⟩⟩ ops).1
        = ((q ++ sent ops).take (exec fifo ⟨⟨q⟩⟩ ops).1.length).map some := by
  induction ops with
  | nil => intro q _; simp [exec_nil]
  | cons op rest ih =>
    intro q h
    cases op with
    | dispatch hd v =>
      rw [exec_dispatch] at h ⊢
      have := ih (fifo q v) h
      simpa [sent, fifo, back_insert_iterator, deque.push_back] using this
    | wait =>
      cases q with
      | nil =>
        rw [exec_wait_nil] at h
        exact absurd rfl (h none (by simp))
      | cons x q =>
        rw [exec_wait_cons] at h ⊢
        have := ih q (fun r hr => h r (by simp [hr]))
        simp only [List.length_cons, List.cons_append, List.take_succ_cons, List.map_cons, sent]
        rw [← this]

/-- From any queue `q`, a run under `lifo` whose `wait` calls all return hands
out the values in the stack order of the specification, the pending values
being `q` read from its back. -/
theorem exec_lifo_stack {α : Type} (ops : List (call α)) :
    ∀ q : List α, (∀ r ∈ (exec lifo ⟨⟨q⟩⟩ ops).1, r ≠ none) →
      (exec lifo ⟨⟨q⟩⟩ ops).1 = (spec_stack_order q.reverse ops).map some := by
  induction ops with
  | nil => intro q _; simp [exec_nil, spec_stack_order]
  | cons op rest ih =>
    intro q h
    cases op with
    | dispatch hd v =>
      rw [exec_dispatch] at h ⊢
      have := ih (lifo q v) h
      simpa [spec_stack_order, lifo, front_insert_iterator, deque.push_front] using this
    | wait =>
      cases q with
      | nil =>
        rw [exec_wait_nil] at h
        exact absurd rfl (h none (by simp))
      | cons x q =>
        rw [exec_wait_cons] at h ⊢
        have := ih q (fun r hr => h r (by simp [hr]))
        simp [spec_stack_order, this]

/-- Both strategies of the header insert the value and nothing else. -/
theorem strategy_perm {α : Type} (st : List α → α → List α) (hst : st = fifo ∨ st = lifo)
    (q : List α) (v : α) : (st q v).Perm (v :: q) := by
  rcases hst with rfl | rfl
  · exact List.perm_append_singleton v q
  · simp [lifo, front_insert_iterator, deque.push_front]

/-- From any queue `q`: what the run hands out together with what it leaves in
the queue is a rearrangement of `q` with the values sent. -/
theorem exec_perm {α : Type} (st : List α → α → List α) (hst : st = fifo ∨ st = lifo)
    (ops : List (call α)) :
    ∀ q : List α,
      (received (exec st ⟨⟨q⟩⟩ ops).1 ++ (exec st ⟨⟨q⟩⟩ ops).2.consumer_.queue_).Perm
        (q ++ sent ops) := by
  induction ops with
  | nil => intro q; simp [exec_nil, received, sent]
  | cons op rest ih =>
    intro q
    cases op with
    | dispatch hd v =>
      rw [exec_dispatch]
      refine (ih (st q v)).trans ?_
      have h1 : (st q v ++ sent rest).Perm ((v :: q) ++ sent rest) :=
        (strategy_perm st hst q v).append_right _
      refine h1.trans ?_
      simp only [sent, List.cons_append]
      exact List.perm_middle.symm
    | wait =>
      cases q with
      | nil =>
        rw [exec_wait_nil]
        simpa [received, sent] using ih []
      | cons x q =>
        rw [exec_wait_cons]
        simpa [received, sent] using ih q

/-- C1. FIFO order of `mpsc`: on a channel with the default strategy `jt::fifo`
that starts empty, for every sequence of sends and receives in which every
receive finds the queue non-empty (no `wait` stays blocked), the receives
return, in order, the first values sent: the `k`-th receive returns the `k`-th
value sent.  In particular after sending `a`, `b`, `c` three receives return
`a`, then `b`, then `c`. -/
theorem mpsc_fifo_order {α : Type} (ops : List (call α))
    (h : ∀ r ∈ (exec fifo new ops).1, r ≠ none) :
    (exec fifo new ops).1
        = ((sent ops).take (exec fifo new ops).1.length).map some
      ∧ (∀ k, k < (exec fifo new ops).1.length →
          ∃ v, (sent ops)[k]? = some v ∧ (exec fifo new ops).1[k]? = some (some v))
      ∧ ∀ (a b c : α) (h1 h2 h3 : Nat),
          (exec fifo new [call.dispatch h1 a, call.dispatch h2 b, call.dispatch h3 c,
            call.wait, call.wait, call.wait]).1 = [some a, some b, some c] := by
  have key : (exec fifo new ops).1
      = ((sent ops).take (exec fifo new ops).1.length).map some := exec_fifo_take ops [] h
  refine ⟨key, ?_, fun a b c h1 h2 h3 => rfl⟩
  intro k hk
  have hlen : (exec fifo new ops).1.length ≤ (sent ops).length := by
    have := congrArg List.length key
    simp only [List.length_map, List.length_take] at this
    omega
  have hk2 : k < (sent ops).length := Nat.lt_of_lt_of_le hk hlen
  refine ⟨(sent ops)[k], List.getElem?_eq_getElem hk2, ?_⟩
  have e : (exec fifo new ops).1[k]?
      = (((sent ops).take (exec fifo new ops).1.length).map some)[k]? :=
    congrArg (fun l => l[k]?) key
  rw [e, List.getElem?_map, List.getElem?_take_of_lt hk, List.getElem?_eq_getElem hk2]
  rfl

/-- Witness of `mpsc_fifo_order`: `"a"`, `"b"`, `"c"` sent through two
handles, then three receives. -/
theorem mpsc_fifo_order_witness :
    (exec fifo new [call.dispatch 0 "a", call.dispatch 1 "b", call.dispatch 0 "c",
        call.wait, call.wait, call.wait]).1 = [some "a", some "b", some "c"] :=
  (mpsc_fifo_order [call.dispatch 0 "a", call.dispatch 1 "b", call.dispatch 0 "c",
        call.wait, call.wait, call.wait] (by simp [exec, new, consumer.new, rx, tx,
          producer.dispatch, consumer.enqueue, consumer.wait, fifo, back_insert_iterator,
          deque.push_back, deque.empty, deque.front, deque.pop_front])).1

/-- C2. LIFO order of `mpsc`: on a channel instantiated with `jt::lifo` that
starts empty, for every sequence of sends and receives in which every receive
finds the queue non-empty, the receives return what the stack order of the
specification prescribes: each one returns the most recently sent value not
yet received.  In particular after sending `a`, `b`, `c` three receives return
`c`, then `b`, then `a`. -/
theorem mpsc_lifo_order {α : Type} (ops : List (call α))
    (h : ∀ r ∈ (exec lifo new ops).1, r ≠ none) :
    (exec lifo new ops).1 = (spec_stack_order [] ops).map some
      ∧ ∀ (a b c : α) (h1 h2 h3 : Nat),
          (exec lifo new [call.dispatch h1 a, call.dispatch h2 b, call.dispatch h3 c,
            call.wait, call.wait, call.wait]).1 = [some c, some b, some a] :=
  ⟨exec_lifo_stack ops [] h, fun _ _ _ _ _ _ => rfl⟩

/-- Witness of `mpsc_lifo_order`: sends and receives interleaved. -/
theorem mpsc_lifo_order_witness :
    (exec lifo new [call.dispatch 0 "a", call.dispatch 1 "b", call.wait,
        call.dispatch 0 "c", call.wait, call.wait]).1 = [some "b", some "c", some "a"] :=
  (mpsc_lifo_order [call.dispatch 0 "a", call.dispatch 1 "b", call.wait,
        call.dispatch 0 "c", call.wait, call.wait] (by simp [exec, new, consumer.new, rx, tx,
          producer.dispatch, consumer.enqueue, consumer.wait, lifo, front_insert_iterator,
          deque.push_front, deque.empty, deque.front, deque.pop_front])).1

/-- C3. No loss and no duplication in `mpsc`: for either insertion strategy and
every sequence of sends (through any handles) and receives on a channel that
starts empty, the values returned by the receives together with the values
still in the queue are, as a multiset, the values sent; so once as many
receives have returned as there were sends, the queue is empty and the
received values are, as a multiset, the sent values. -/
theorem mpsc_no_loss_no_duplication {α : Type} (st : List α → α → List α)
    (hst : st = fifo ∨ st = lifo) (ops : List (call α)) :
    ((received (exec st new ops).1 : Multiset α) + ((exec st new ops).2.consumer_.queue_ : Multiset α)
        = (sent ops : Multiset α))
      ∧ ((received (exec st new ops).1).length = (sent ops).length →
          (exec st new ops).2.consumer_.queue_ = []
            ∧ (received (exec st new ops).1 : Multiset α) = (sent ops : Multiset α)) := by
  have key : (received (exec st new ops).1 ++ (exec st new ops).2.consumer_.queue_).Perm
      (sent ops) := exec_perm st hst ops []
  refine ⟨?_, ?_⟩
  · rw [Multiset.coe_add]
    exact Multiset.coe_eq_coe.mpr key
  · intro hlen
    have hl := key.length_eq
    rw [List.length_append, hlen] at hl
    have hq : (exec st new ops).2.consumer_.queue_ = [] :=
      List.length_eq_zero.mp (by omega)
    refine ⟨hq, ?_⟩
    rw [hq, List.append_nil] at key
    exact Multiset.coe_eq_coe.mpr key

/-- Witness of `mpsc_no_loss_no_duplication`: three sends through three
handles matched by three receives under `lifo`. -/
theorem mpsc_no_loss_no_duplication_witness :
    (exec lifo new [call.dispatch 0 1, call.dispatch 1 2, call.wait,
        call.dispatch 2 3, call.wait, call.wait]).2.consumer_.queue_ = []
      ∧ ((received (exec lifo new [call.dispatch 0 1, call.dispatch 1 2, call.wait,
        call.dispatch 2 3, call.wait, call.wait]).1 : Multiset Nat) = ([1, 2, 3] : List Nat)) :=
  (mpsc_no_loss_no_duplication lifo (Or.inr rfl) [call.dispatch 0 1, call.dispatch 1 2,
      call.wait, call.dispatch 2 3, call.wait, call.wait]).2 (by decide)

end mpsc

/-! ## Facts about `jt::spmc` -/

namespace spmc

theorem remove_consumers (p : producer) (sub : Nat) :
    (p.remove sub).consumers_ = p.consumers_.filter (fun x => x != sub) := by
  have h := List.length_filter_le (fun x => x != sub) p.consumers_
  simp [producer.remove, std_remove, list_erase]
  omega

theorem remove_eq (p : producer) (sub : Nat) :
    p.remove sub = ⟨p.consumers_.filter (fun x => x != sub)⟩ := by
  have h := remove_consumers p sub
  cases hp : p.remove sub
  rw [hp] at h
  simp only at h
  rw [h]

theorem deref_mk {α : Type} (p : producer) (objs : List (Option (consumer α))) (d : Nat) :
    deref ⟨p, objs⟩ d = (objs[d]?).getD none := rfl

theorem deref_eq_none_of_le {α : Type} (s : spmc α) (d : Nat) (h : s.objects.length ≤ d) :
    deref s d = none := by
  simp [deref, List.getElem?_eq_none h]

theorem lt_of_deref_eq_some {α : Type} (s : spmc α) (d : Nat) (o : consumer α)
    (h : deref s d = some o) : d < s.objects.length := by
  by_contra hlt
  rw [deref_eq_none_of_le s d (Nat.le_of_not_lt hlt)] at h
  cases h

theorem lt_of_isSome {α : Type} (s : spmc α) (d : Nat)
    (h : (deref s d).isSome = true) : d < s.objects.length := by
  obtain ⟨o, ho⟩ := Option.isSome_iff_exists.mp h
  exact lt_of_deref_eq_some s d o ho

theorem deref_set {α : Type} (p : producer) (objs : List (Option (consumer α))) (c d : Nat)
    (o : Option (consumer α)) :
    deref ⟨p, objs.set c o⟩ d
      = if d = c then (if c < objs.length then o else none) else (objs[d]?).getD none := by
  rw [deref_mk, List.getElem?_set]
  by_cases h : c = d
  · subst h
    by_cases h2 : c < objs.length <;> simp [h2]
  · have h' : ¬ d = c := fun e => h e.symm
    simp [h, h']

theorem deref_push {α : Type} (p : producer) (objs : List (Option (consumer α))) (d : Nat)
    (o : Option (consumer α)) :
    deref ⟨p, objs ++ [o]⟩ d = if d = objs.length then o else (objs[d]?).getD none := by
  rw [deref_mk, List.getElem?_append]
  by_cases h : d < objs.length
  · have : ¬ d = objs.length := Nat.ne_of_lt h
    simp [h, this]
  · by_cases h2 : d = objs.length
    · subst h2; simp
    · have h3 : objs.length ≤ d := Nat.le_of_not_lt h
      have h4 : [o].length ≤ d - objs.length := by simp; omega
      simp [h, h2, List.getElem?_eq_none h3, List.getElem?_eq_none h4]

/-! ### `enqueue` through a pointer and `dispatch` -/

theorem enqueue_at_producer {α : Type} (val : α) (s : spmc α) (c : Nat) :
    (enqueue_at val s c).producer_ = s.producer_ := by
  unfold enqueue_at
  cases deref s c <;> rfl

theorem enqueue_at_length {α : Type} (val : α) (s : spmc α) (c : Nat) :
    (enqueue_at val s c).objects.length = s.objects.length := by
  unfold enqueue_at
  cases deref s c <;> simp [assign]

theorem deref_enqueue_at {α : Type} (val : α) (s : spmc α) (c d : Nat) :
    deref (enqueue_at val s c) d
      = if d = c then (deref s c).map (fun o => o.enqueue val) else deref s d := by
  unfold enqueue_at
  cases h : deref s c with
  | none =>
    by_cases hd : d = c
    · subst hd; simp [h]
    · simp [hd]
  | some obj =>
    have hlt := lt_of_deref_eq_some s c obj h
    simp only [assign, deref_set, hlt, if_true, Option.map_some']
    by_cases hd : d = c
    · simp [hd]
    · simp [hd, deref]

theorem dispatch_producer {α : Type} (val : α) (l : List Nat) :
    ∀ s : spmc α, (l.foldl (enqueue_at val) s).producer_ = s.producer_ := by
  induction l with
  | nil => intro s; rfl
  | cons c l ih => intro s; rw [List.foldl_cons, ih, enqueue_at_producer]

theorem dispatch_length {α : Type} (val : α) (l : List Nat) :
    ∀ s : spmc α, (l.foldl (enqueue_at val) s).objects.length = s.objects.length := by
  induction l with
  | nil => intro s; rfl
  | cons c l ih => intro s; rw [List.foldl_cons, ih, enqueue_at_length]

theorem deref_dispatch_of_not_mem {α : Type} (val : α) (d : Nat) (l : List Nat) :
    ∀ s : spmc α, d ∉ l → deref (l.foldl (enqueue_at val) s) d = deref s d := by
  induction l with
  | nil => intro s _; rfl
  | cons c l ih =>
    intro s hd
    have h1 : d ≠ c := fun e => hd (by simp [e])
    have h2 : d ∉ l := fun e => hd (by simp [e])
    rw [List.foldl_cons, ih _ h2, deref_enqueue_at, if_neg h1]

theorem deref_dispatch_of_mem {α : Type} (val : α) (d : Nat) (l : List Nat) :
    ∀ s : spmc α, l.Nodup → d ∈ l →
      deref (l.foldl (enqueue_at val) s) d = (deref s d).map (fun o => o.enqueue val) := by
  induction l with
  | nil => intro s _ hd; cases hd
  | cons c l ih =>
    intro s hn hd
    rw [List.nodup_cons] at hn
    rw [List.foldl_cons]
    by_cases h1 : d = c
    · subst h1
      rw [deref_dispatch_of_not_mem val d l _ hn.1, deref_enqueue_at, if_pos rfl]
    · have h2 : d ∈ l := by
        rcases List.mem_cons.mp hd with e | e
        · exact absurd e h1
        · exact e
      rw [ih _ hn.2 h2, deref_enqueue_at, if_neg h1]

/-! ### Construction, destruction and `rx` -/

theorem allocated_of_wf {α : Type} (s : spmc α) (h : wf s) : allocated s :=
  fun c hc => lt_of_isSome s c ((h.2 c).mp hc)

theorem filter_ne_of_allocated (reg : List Nat) (n : Nat) (h : ∀ c ∈ reg, c < n) :
    reg.filter (fun x => x != n) = reg := by
  rw [List.filter_eq_self]
  intro a ha
  have := h a ha
  simp; omega

theorem rx_fst {α : Type} (s : spmc α) : (rx s).1 = s.objects.length + 1 := by
  simp [rx, consumer.construct, consumer.move]

theorem rx_objects {α : Type} (s : spmc α) :
    (rx s).2.objects = s.objects ++ [none, some ⟨[]⟩] := by
  simp [rx, consumer.construct, consumer.move, consumer.destroy]

theorem rx_consumers {α : Type} (s : spmc α) (h : allocated s) :
    (rx s).2.producer_.consumers_ = s.producer_.consumers_ ++ [s.objects.length + 1] := by
  simp only [rx, consumer.construct, consumer.move, consumer.destroy, remove_consumers,
    producer.adopt, List.filter_append, filter_ne_of_allocated _ _ h]
  simp

theorem deref_rx {α : Type} (s : spmc α) (d : Nat) :
    deref (rx s).2 d
      = if d = s.objects.length + 1 then some ⟨[]⟩
        else if d = s.objects.length then none else deref s d := by
  have e : deref (rx s).2 d = deref ⟨(rx s).2.producer_, (s.objects ++ [none]) ++ [some ⟨[]⟩]⟩ d := by
    rw [deref_mk]
    simp [deref, rx_objects]
  rw [e, deref_push]
  by_cases h1 : d = s.objects.length + 1
  · simp [h1]
  · have h1' : ¬ d = (s.objects ++ [none]).length := by simpa using h1
    rw [if_neg h1', if_neg h1, ← deref_mk s.producer_, deref_push]
    by_cases h2 : d = s.objects.length
    · simp [h2]
    · simp [h2, deref]

theorem deref_destroy {α : Type} (s : spmc α) (c d : Nat) :
    deref (consumer.destroy s c) d = if d = c then none else deref s d := by
  simp only [consumer.destroy, deref_set]
  by_cases h : d = c
  · simp [h]
  · simp [h, deref]

theorem wf_new {α : Type} : wf (new : spmc α) := by
  refine ⟨List.nodup_nil, ?_⟩
  intro c
  simp [new, producer.new, deref]

theorem wf_rx {α : Type} (s : spmc α) (h : wf s) : wf (rx s).2 := by
  have ha := allocated_of_wf s h
  refine ⟨?_, ?_⟩
  · rw [rx_consumers s ha]
    refine List.Nodup.append h.1 (List.nodup_singleton _) ?_
    intro a ha1 ha2
    have := ha a ha1
    simp at ha2
    omega
  · intro c
    rw [rx_consumers s ha, deref_rx]
    by_cases h1 : c = s.objects.length + 1
    · simp [h1]
    · by_cases h2 : c = s.objects.length
      · have : s.objects.length ∉ s.producer_.consumers_ := fun hm => Nat.lt_irrefl _ (ha _ hm)
        simp [h2, this]
      · simp [h1, h2, h.2 c]

theorem wf_destroy {α : Type} (s : spmc α) (c : Nat) (h : wf s) : wf (consumer.destroy s c) := by
  refine ⟨?_, ?_⟩
  · show (s.producer_.remove c).consumers_.Nodup
    rw [remove_consumers]
    exact h.1.filter _
  · intro d
    rw [deref_destroy]
    show d ∈ (s.producer_.remove c).consumers_ ↔ _
    rw [remove_consumers, List.mem_filter]
    by_cases hd : d = c
    · simp [hd]
    · simp [hd, h.2 d]

theorem wf_push {α : Type} (s : spmc α) (o : consumer α) (h : wf s) :
    wf ⟨s.producer_.adopt s.objects.length, s.objects ++ [some o]⟩ := by
  have ha := allocated_of_wf s h
  refine ⟨?_, ?_⟩
  · show (s.producer_.consumers_ ++ [s.objects.length]).Nodup
    refine List.Nodup.append h.1 (List.nodup_singleton _) ?_
    intro a ha1 ha2
    have := ha a ha1
    simp at ha2
    omega
  · intro c
    rw [deref_push]
    show c ∈ s.producer_.consumers_ ++ [s.objects.length] ↔ _
    by_cases h1 : c = s.objects.length
    · simp [h1]
    · have := h.2 c
      simp only [deref] at this
      simp [h1, this]

theorem wf_dispatch {α : Type} (s : spmc α) (val : α) (h : wf s) :
    wf (producer.dispatch val s) := by
  unfold producer.dispatch
  refine ⟨?_, ?_⟩
  · rw [dispatch_producer]; exact h.1
  · intro c
    rw [dispatch_producer]
    by_cases hc : c ∈ s.producer_.consumers_
    · rw [deref_dispatch_of_mem val c _ s h.1 hc]
      simp [hc, (h.2 c).mp hc]
    · rw [deref_dispatch_of_not_mem val c _ s hc]
      exact h.2 c

theorem wait_of_none {α : Type} (s : spmc α) (c : Nat) (h : deref s c = none) :
    wait s c = (none, s) := by
  simp [wait, h]

theorem wait_of_nil {α : Type} (s : spmc α) (c : Nat) (h : deref s c = some ⟨[]⟩) :
    wait s c = (none, s) := by
  simp only [wait, h]
  rfl

theorem wait_of_cons {α : Type} (s : spmc α) (c : Nat) (x : α) (q : List α)
    (h : deref s c = some ⟨x :: q⟩) :
    wait s c = (some x, assign s c (some ⟨q⟩)) := by
  simp only [wait, h]
  rfl

/-- The three ways a `wait` through a pointer can go. -/
theorem wait_cases {α : Type} (s : spmc α) (c : Nat) :
    wait s c = (none, s)
      ∨ ∃ x q, deref s c = some ⟨x :: q⟩ ∧ wait s c = (some x, assign s c (some ⟨q⟩)) := by
  cases h : deref s c with
  | none => exact Or.inl (wait_of_none s c h)
  | some obj =>
    obtain ⟨q⟩ := obj
    cases q with
    | nil => exact Or.inl (wait_of_nil s c h)
    | cons x q => exact Or.inr ⟨x, q, rfl, wait_of_cons s c x q h⟩

theorem wait_producer {α : Type} (s : spmc α) (c : Nat) : (wait s c).2.producer_ = s.producer_ := by
  rcases wait_cases s c with h | ⟨x, q, _, h⟩ <;> rw [h]
  rfl

theorem wait_length {α : Type} (s : spmc α) (c : Nat) :
    (wait s c).2.objects.length = s.objects.length := by
  rcases wait_cases s c with h | ⟨x, q, _, h⟩ <;> rw [h]
  simp [assign]

theorem deref_wait {α : Type} (s : spmc α) (c d : Nat) (hd : d ≠ c) :
    deref (wait s c).2 d = deref s d := by
  rcases wait_cases s c with h | ⟨x, q, _, h⟩ <;> rw [h]
  simp only [assign, deref_set, if_neg hd]
  rfl

theorem isSome_deref_wait {α : Type} (s : spmc α) (c d : Nat) :
    (deref (wait s c).2 d).isSome = (deref s d).isSome := by
  by_cases hd : d = c
  · subst hd
    rcases wait_cases s d with h | ⟨x, q, hq, h⟩ <;> rw [h]
    have hlt := lt_of_deref_eq_some s d _ hq
    simp [assign, deref_set, hlt, hq]
  · rw [deref_wait s c d hd]

theorem wf_wait {α : Type} (s : spmc α) (c : Nat) (h : wf s) : wf (wait s c).2 := by
  refine ⟨?_, ?_⟩
  · rw [wait_producer]; exact h.1
  · intro d
    rw [wait_producer, isSome_deref_wait]
    exact h.2 d

theorem wf_step {α : Type} (s : spmc α) (op : call α) (h : wf s) : wf (step s op) := by
  cases op with
  | rx => exact wf_rx s h
  | destroy c => exact wf_destroy s c h
  | dispatch val => exact wf_dispatch s val h
  | wait c => exact wf_wait s c h
  | copy other =>
    simp only [step, consumer.copy]
    cases deref s other with
    | none => exact h
    | some o => exact wf_push s _ h
  | move other =>
    simp only [step]
    cases deref s other with
    | none => exact h
    | some o => exact wf_push s _ h

theorem wf_run {α : Type} (ops : List (call α)) : ∀ s : spmc α, wf s → wf (run s ops) := by
  induction ops with
  | nil => intro s h; exact h
  | cons op rest ih => intro s h; exact ih _ (wf_step s op h)

/-! ### Counting the copies a broadcast makes -/

theorem sum_backlog_set {α : Type} (obj obj2 : consumer α)
    (hq : obj2.queue_.length = obj.queue_.length + 1) :
    ∀ (objs : List (Option (consumer α))) (c : Nat), objs[c]? = some (some obj) →
      ((objs.set c (some obj2)).map backlog).sum = (objs.map backlog).sum + 1 := by
  intro objs
  induction objs with
  | nil => intro c h; simp at h
  | cons o objs ih =>
    intro c h
    cases c with
    | zero =>
      simp only [List.getElem?_cons_zero, Option.some.injEq] at h
      subst h
      simp only [List.set_cons_zero, List.map_cons, List.sum_cons, backlog, hq]
      omega
    | succ c =>
      simp only [List.getElem?_cons_succ] at h
      simp only [List.set_cons_succ, List.map_cons, List.sum_cons, ih c h]
      omega

theorem getElem?_of_deref {α : Type} (s : spmc α) (c : Nat) (obj : consumer α)
    (h : deref s c = some obj) : s.objects[c]? = some (some obj) := by
  unfold deref at h
  cases h2 : s.objects[c]? with
  | none => rw [h2] at h; cases h
  | some o => rw [h2] at h; simp only [Option.getD_some] at h; rw [h]

theorem pending_enqueue_at {α : Type} (val : α) (s : spmc α) (c : Nat)
    (h : (deref s c).isSome = true) : pending (enqueue_at val s c) = pending s + 1 := by
  obtain ⟨obj, ho⟩ := Option.isSome_iff_exists.mp h
  simp only [enqueue_at, ho, assign, pending]
  exact sum_backlog_set obj (obj.enqueue val) (by simp [consumer.enqueue, deque.emplace_front])
    s.objects c (getElem?_of_deref s c obj ho)

theorem isSome_deref_enqueue_at {α : Type} (val : α) (s : spmc α) (c d : Nat) :
    (deref (enqueue_at val s c) d).isSome = (deref s d).isSome := by
  rw [deref_enqueue_at]
  by_cases hd : d = c
  · subst hd; simp
  · simp [hd]

theorem pending_dispatch {α : Type} (val : α) (l : List Nat) :
    ∀ s : spmc α, (∀ c ∈ l, (deref s c).isSome = true) →
      pending (l.foldl (enqueue_at val) s) = pending s + l.length := by
  induction l with
  | nil => intro s _; rfl
  | cons c l ih =>
    intro s h
    rw [List.foldl_cons, ih, pending_enqueue_at val s c (h c (by simp)), List.length_cons]
    · omega
    · intro d hd
      rw [isSome_deref_enqueue_at]
      exact h d (by simp [hd])

/-- C4. Broadcast fan-out: in every state reached from a fresh `spmc` channel by
complete calls (`rx`, consumer destruction, `dispatch`, `wait`, and also copy
and move construction of consumers), `dispatch(val)` leaves the registry as it
is, puts exactly one copy of `val` into the queue of every consumer of the
registry, and leaves every other consumer object unchanged; the registry names
no consumer twice, so the number of pending values grows by the number of
registered consumers.  In particular with four consumers subscribed before
`dispatch(x)`, each of the four receives `x` and then has nothing pending. -/
theorem spmc_broadcast_fan_out {α : Type} (ops : List (call α)) (val : α) :
    (producer.dispatch val (run new ops)).producer_ = (run new ops).producer_
      ∧ (∀ c ∈ (run new ops).producer_.consumers_, ∃ q,
          deref (run new ops) c = some ⟨q⟩
            ∧ deref (producer.dispatch val (run new ops)) c = some ⟨val :: q⟩)
      ∧ (∀ c, c ∉ (run new ops).producer_.consumers_ →
          deref (producer.dispatch val (run new ops)) c = deref (run new ops) c)
      ∧ (run new ops).producer_.consumers_.Nodup
      ∧ pending (producer.dispatch val (run new ops))
          = pending (run new ops) + (run new ops).producer_.consumers_.length
      ∧ ∀ x : α,
          (run (new : spmc α) [call.rx, call.rx, call.rx, call.rx]).producer_.consumers_
              = [1, 3, 5, 7]
            ∧ ∀ c ∈ [1, 3, 5, 7],
                (wait (producer.dispatch x (run new [call.rx, call.rx, call.rx, call.rx])) c).1
                    = some x
                  ∧ (wait (wait (producer.dispatch x
                      (run new [call.rx, call.rx, call.rx, call.rx])) c).2 c).1 = none := by
  have hwf : wf (run (new : spmc α) ops) := wf_run ops new wf_new
  refine ⟨dispatch_producer val _ _, ?_, ?_, hwf.1, ?_, ?_⟩
  · intro c hc
    obtain ⟨obj, ho⟩ := Option.isSome_iff_exists.mp ((hwf.2 c).mp hc)
    refine ⟨obj.queue_, ho, ?_⟩
    unfold producer.dispatch
    rw [deref_dispatch_of_mem val c _ _ hwf.1 hc, ho]
    rfl
  · intro c hc
    exact deref_dispatch_of_not_mem val c _ _ hc
  · exact pending_dispatch val _ _ (fun c hc => (hwf.2 c).mp hc)
  · intro x
    have hs : producer.dispatch x (run (new : spmc α) [call.rx, call.rx, call.rx, call.rx])
        = ⟨⟨[1, 3, 5, 7]⟩, [none, some ⟨[x]⟩, none, some ⟨[x]⟩, none, some ⟨[x]⟩,
            none, some ⟨[x]⟩]⟩ := by
      simp [run, step, rx, consumer.construct, consumer.move, consumer.destroy, producer.adopt,
        remove_eq, new, producer.new, producer.dispatch, enqueue_at, deref, assign,
        consumer.enqueue, deque.emplace_front]
    refine ⟨by simp [run, step, rx, consumer.construct, consumer.move, consumer.destroy,
      producer.adopt, remove_eq, new, producer.new], ?_⟩
    intro c hc
    rw [hs]
    simp only [List.mem_cons, List.mem_singleton, List.not_mem_nil, or_false] at hc
    rcases hc with rfl | rfl | rfl | rfl <;> exact ⟨rfl, rfl⟩

/-- Witness of `spmc_broadcast_fan_out`: consumers `1` and `3` are subscribed,
`3` already holds `8`; the broadcast of `9` reaches both, and the destroyed
temporary `0` stays as it is. -/
theorem spmc_broadcast_fan_out_witness :
    (∃ q, deref (run new [call.rx, call.rx, call.dispatch 8, call.wait 1]) 3 = some ⟨q⟩
        ∧ deref (producer.dispatch 9 (run new [call.rx, call.rx, call.dispatch 8, call.wait 1])) 3
            = some ⟨9 :: q⟩)
      ∧ deref (producer.dispatch 9 (run new [call.rx, call.rx, call.dispatch 8, call.wait 1])) 0
          = deref (run new [call.rx, call.rx, call.dispatch 8, call.wait 1]) 0 :=
  ⟨(spmc_broadcast_fan_out [call.rx, call.rx, call.dispatch 8, call.wait 1] 9).2.1 3 (by decide),
   (spmc_broadcast_fan_out [call.rx, call.rx, call.dispatch 8, call.wait 1] 9).2.2.1 0 (by decide)⟩

/-- C5, evaluated at a failing input.  One consumer is subscribed and `1`, then
`2` are broadcast with no receive in between: `enqueue` puts each value at the
front of the queue, from where `wait` takes it, so the two receives return `2`
and then `1`, not `1` and then `2`. -/
theorem spmc_consumer_newest_first :
    (rx (new : spmc Nat)).1 = 1
      ∧ deref (run new [call.rx, call.dispatch 1, call.dispatch 2]) 1 = some ⟨[2, 1]⟩
      ∧ (wait_n 2 (run new [call.rx, call.dispatch 1, call.dispatch 2]) 1).1 = [some 2, some 1]
      ∧ (wait_n 2 (run new [call.rx, call.dispatch 1, call.dispatch 2]) 1).1
          ≠ [some 1, some 2] := by
  decide

/-! ### Subscribe and unsubscribe -/

theorem mem_rx_consumers {α : Type} (s : spmc α) (d : Nat)
    (h : d ∈ (rx s).2.producer_.consumers_) :
    (d ∈ s.producer_.consumers_ ∧ d ≠ s.objects.length) ∨ d = s.objects.length + 1 := by
  simp only [rx, consumer.construct, consumer.move, consumer.destroy, remove_consumers,
    producer.adopt, List.mem_filter, List.mem_append, List.mem_singleton, List.length_append,
    List.length_singleton] at h
  obtain ⟨hm, hne⟩ := h
  have hne' : d ≠ s.objects.length := by simpa using hne
  rcases hm with ((hm | hm) | hm) | hm
  · exact Or.inl ⟨hm, hne'⟩
  · exact absurd hm hne'
  · exact absurd hm hne'
  · exact Or.inr hm

/-- C6. Subscribe appends exactly the new consumer: in every producer state whose
registry holds only pointers to consumer objects constructed so far, after
`rx()` the registry is the former registry with the returned consumer appended.
The returned consumer was not registered before and is registered once; the
temporary that `rx()` builds is registered twice before the return statement
and is in the registry no more when `rx()` has returned; every other pointer
occurs as often as before, the former entries keeping their order. -/
theorem spmc_rx_appends {α : Type} (s : spmc α) (h : allocated s) :
    (rx s).2.producer_.consumers_ = s.producer_.consumers_ ++ [(rx s).1]
      ∧ (rx s).1 ∉ s.producer_.consumers_
      ∧ (rx s).2.producer_.consumers_.count (rx s).1 = 1
      ∧ (((consumer.construct s).2.producer_.adopt (consumer.construct s).1).consumers_.count
          (consumer.construct s).1 = 2)
      ∧ (consumer.construct s).1 ∉ (rx s).2.producer_.consumers_
      ∧ ∀ d, d ≠ (rx s).1 →
          (rx s).2.producer_.consumers_.count d = s.producer_.consumers_.count d := by
  have hnew : s.objects.length + 1 ∉ s.producer_.consumers_ := fun hm => by
    have := h _ hm
    omega
  have htmp : s.objects.length ∉ s.producer_.consumers_ := fun hm => by
    have := h _ hm
    omega
  rw [rx_consumers s h, rx_fst]
  refine ⟨rfl, hnew, ?_, ?_, ?_, ?_⟩
  · rw [List.count_append, List.count_eq_zero.mpr hnew]
    simp
  · simp only [consumer.construct, producer.adopt, List.count_append,
      List.count_eq_zero.mpr htmp]
    simp
  · simp only [consumer.construct, List.mem_append, List.mem_singleton]
    rintro (hm | hm)
    · exact htmp hm
    · omega
  · intro d hd
    rw [List.count_append]
    have : [s.objects.length + 1].count d = 0 := by
      rw [List.count_eq_zero]
      simpa using hd
    omega

/-- Witness of `spmc_rx_appends`: a second subscription on a channel that has the
consumer `1`. -/
theorem spmc_rx_appends_witness :
    (rx (run (new : spmc Nat) [call.rx])).2.producer_.consumers_
      = (run (new : spmc Nat) [call.rx]).producer_.consumers_
          ++ [(rx (run (new : spmc Nat) [call.rx])).1] :=
  (spmc_rx_appends (run (new : spmc Nat) [call.rx]) (by decide)).1

/-- C7. Unsubscribe removes exactly that consumer: for every registry and every
consumer `c`, after `producer::remove(c)`, which is what the destructor of `c`
runs, the registry has no occurrence of `c`, however often `c` occurred, and is
the former registry with its entries other than `c` in their order, each as
often as before; a second `remove(c)` changes nothing more, and `remove` of a
consumer that is not registered changes nothing. -/
theorem spmc_remove_exact (p : producer) (c : Nat) :
    c ∉ (p.remove c).consumers_
      ∧ (p.remove c).consumers_ = p.consumers_.filter (fun x => decide (x ≠ c))
      ∧ (p.remove c).consumers_.Sublist p.consumers_
      ∧ (∀ d, d ≠ c → (p.remove c).consumers_.count d = p.consumers_.count d)
      ∧ (p.remove c).remove c = p.remove c
      ∧ (c ∉ p.consumers_ → p.remove c = p)
      ∧ ∀ s : spmc Unit, (consumer.destroy s c).producer_ = s.producer_.remove c := by
  have hf : (fun x : Nat => decide (x ≠ c)) = (fun x => x != c) := by
    funext x
    by_cases hx : x = c <;> simp [hx]
  refine ⟨?_, ?_, ?_, ?_, ?_, ?_, fun _ => rfl⟩
  · rw [remove_consumers]
    simp
  · rw [remove_consumers, hf]
  · rw [remove_consumers]
    exact List.filter_sublist _
  · intro d hd
    rw [remove_consumers]
    exact List.count_filter (by simpa using hd)
  · rw [remove_eq (p.remove c), remove_eq p]
    simp
  · intro hc
    rw [remove_eq]
    have : p.consumers_.filter (fun x => x != c) = p.consumers_ := by
      rw [List.filter_eq_self]
      intro a ha
      have : a ≠ c := fun e => hc (e ▸ ha)
      simpa using this
    rw [this]

/-- Witness of `spmc_remove_exact`: `2` is not in the registry `[1, 3, 1]`, and
removing it changes nothing. -/
theorem spmc_remove_exact_witness :
    (⟨[1, 3, 1]⟩ : producer).remove 2 = ⟨[1, 3, 1]⟩ :=
  (spmc_remove_exact ⟨[1, 3, 1]⟩ 2).2.2.2.2.2.1 (by decide)

/-! ### What a call can do to an object that already exists -/

theorem step_length_le {α : Type} (t : spmc α) (op : call α) :
    t.objects.length ≤ (step t op).objects.length := by
  cases op with
  | rx => simp [step, rx_objects]
  | destroy c => simp [step, consumer.destroy]
  | dispatch val => simp [step, producer.dispatch, dispatch_length]
  | wait c => simp [step, wait_length]
  | copy other =>
    simp only [step, consumer.copy]
    cases deref t other <;> simp
  | move other =>
    simp only [step, consumer.move]
    cases deref t other <;> simp

theorem mem_step_consumers {α : Type} (t : spmc α) (op : call α) (d : Nat)
    (h : d ∈ (step t op).producer_.consumers_) :
    d ∈ t.producer_.consumers_ ∨ t.objects.length ≤ d := by
  cases op with
  | rx =>
    rcases mem_rx_consumers t d h with h1 | h1
    · exact Or.inl h1.1
    · exact Or.inr (by omega)
  | destroy c =>
    have h2 : d ∈ (t.producer_.remove c).consumers_ := h
    rw [remove_consumers] at h2
    exact Or.inl (List.mem_filter.mp h2).1
  | dispatch val =>
    simp only [step, producer.dispatch, dispatch_producer] at h
    exact Or.inl h
  | wait c =>
    simp only [step, wait_producer] at h
    exact Or.inl h
  | copy other =>
    simp only [step, consumer.copy] at h
    cases ho : deref t other with
    | none => rw [ho] at h; exact Or.inl h
    | some o =>
      rw [ho] at h
      simp only [producer.adopt, List.mem_append, List.mem_singleton] at h
      rcases h with h | h
      · exact Or.inl h
      · exact Or.inr (by omega)
  | move other =>
    simp only [step, consumer.move] at h
    cases ho : deref t other with
    | none => rw [ho] at h; exact Or.inl h
    | some o =>
      rw [ho] at h
      simp only [producer.adopt, List.mem_append, List.mem_singleton] at h
      rcases h with h | h
      · exact Or.inl h
      · exact Or.inr (by omega)

/-- The dispatch loop only puts `val` into a queue, and only into the queue of
an object that is there. -/
theorem queue_dispatch {α : Type} (val : α) (c : Nat) (l : List Nat) :
    ∀ (s : spmc α) (o2 : consumer α), deref (l.foldl (enqueue_at val) s) c = some o2 →
      ∃ o, deref s c = some o ∧ ∀ v ∈ o2.queue_, v ∈ o.queue_ ∨ v = val := by
  induction l with
  | nil => intro s o2 h; exact ⟨o2, h, fun v hv => Or.inl hv⟩
  | cons d l ih =>
    intro s o2 h
    rw [List.foldl_cons] at h
    obtain ⟨o1, h1, h2⟩ := ih _ o2 h
    rw [deref_enqueue_at] at h1
    by_cases hcd : c = d
    · subst hcd
      rw [if_pos rfl] at h1
      cases hs : deref s c with
      | none => rw [hs] at h1; cases h1
      | some o =>
        rw [hs] at h1
        simp only [Option.map_some', Option.some.injEq] at h1
        subst h1
        refine ⟨o, rfl, fun v hv => ?_⟩
        rcases h2 v hv with h3 | h3
        · simp only [consumer.enqueue, deque.emplace_front, List.mem_cons] at h3
          rcases h3 with h3 | h3
          · exact Or.inr h3
          · exact Or.inl h3
        · exact Or.inr h3
    · rw [if_neg hcd] at h1
      exact ⟨o1, h1, h2⟩

/-- A call leaves an object that exists either as it was, or with values taken
out of its queue, or, when the call is a broadcast, with the broadcast value
put in; an object that is gone stays gone. -/
theorem queue_step {α : Type} (t : spmc α) (op : call α) (c : Nat) (hc : c < t.objects.length)
    (o2 : consumer α) (h : deref (step t op) c = some o2) :
    ∃ o, deref t c = some o ∧ ∀ v ∈ o2.queue_, v ∈ o.queue_ ∨ op = call.dispatch v := by
  have hne : ¬ c = t.objects.length := Nat.ne_of_lt hc
  have keep : deref t c = some o2 →
      ∃ o, deref t c = some o ∧ ∀ v ∈ o2.queue_, v ∈ o.queue_ ∨ op = call.dispatch v :=
    fun e => ⟨o2, e, fun v hv => Or.inl hv⟩
  cases op with
  | rx =>
    simp only [step, deref_rx] at h
    have hne2 : ¬ c = t.objects.length + 1 := by omega
    rw [if_neg hne2, if_neg hne] at h
    exact keep h
  | destroy d =>
    simp only [step, deref_destroy] at h
    by_cases hd : c = d
    · rw [if_pos hd] at h; cases h
    · rw [if_neg hd] at h; exact keep h
  | dispatch val =>
    obtain ⟨o, h1, h2⟩ := queue_dispatch val c _ t o2 h
    refine ⟨o, h1, fun v hv => ?_⟩
    rcases h2 v hv with h3 | h3
    · exact Or.inl h3
    · exact Or.inr (by rw [h3])
  | wait d =>
    simp only [step] at h
    by_cases hd : c = d
    · subst hd
      rcases wait_cases t c with hw | ⟨x, q, hq, hw⟩
      · rw [hw] at h; exact keep h
      · rw [hw] at h
        simp only [assign, deref_set, if_pos hc, if_true, Option.some.injEq] at h
        subst h
        exact ⟨⟨x :: q⟩, hq, fun v hv => Or.inl (List.mem_cons_of_mem x hv)⟩
    · rw [deref_wait t d c hd] at h; exact keep h
  | copy other =>
    simp only [step, consumer.copy] at h
    cases ho : deref t other with
    | none => rw [ho] at h; exact keep h
    | some o =>
      rw [ho] at h
      simp only [deref_push, if_neg hne] at h
      exact keep h
  | move other =>
    simp only [step, consumer.move] at h
    cases ho : deref t other with
    | none => rw [ho] at h; exact keep h
    | some o =>
      rw [ho] at h
      simp only [deref_push, if_neg hne] at h
      exact keep h

theorem run_cons {α : Type} (t : spmc α) (op : call α) (rest : List (call α)) :
    run t (op :: rest) = run (step t op) rest := rfl

/-- Once an object is gone and out of the registry, no sequence of calls brings
it back. -/
theorem retired_run {α : Type} (c : Nat) (ops : List (call α)) :
    ∀ t : spmc α, c < t.objects.length → c ∉ t.producer_.consumers_ → deref t c = none →
      c ∉ (run t ops).producer_.consumers_ ∧ deref (run t ops) c = none := by
  induction ops with
  | nil => intro t _ h2 h3; exact ⟨h2, h3⟩
  | cons op rest ih =>
    intro t h1 h2 h3
    rw [run_cons]
    refine ih _ (Nat.lt_of_lt_of_le h1 (step_length_le t op)) ?_ ?_
    · intro hm
      rcases mem_step_consumers t op c hm with h | h
      · exact h2 h
      · omega
    · cases hs : deref (step t op) c with
      | none => rfl
      | some o2 =>
        obtain ⟨o, ho, _⟩ := queue_step t op c h1 o2 hs
        rw [h3] at ho
        cases ho

/-- C8. A retired consumer is never referenced again: once a consumer `c` that
was constructed has been destroyed, then after every further sequence of
complete calls (`rx`, destruction, `dispatch`, `wait`, copy and move
construction) `c` is not in the registry that `dispatch` iterates over, and no
object is behind `c`, so no `dispatch` enqueues into `c`. -/
theorem spmc_retired_never_referenced {α : Type} (s : spmc α) (c : Nat)
    (hc : c < s.objects.length) (ops : List (call α)) :
    c ∉ (run (consumer.destroy s c) ops).producer_.consumers_
      ∧ deref (run (consumer.destroy s c) ops) c = none
      ∧ ∀ val : α, deref (producer.dispatch val (run (consumer.destroy s c) ops)) c = none := by
  have h := retired_run c ops (consumer.destroy s c)
    (by simpa [consumer.destroy] using hc)
    (by
      show c ∉ (s.producer_.remove c).consumers_
      rw [remove_consumers]
      simp)
    (by rw [deref_destroy, if_pos rfl])
  refine ⟨h.1, h.2, fun val => ?_⟩
  unfold producer.dispatch
  rw [deref_dispatch_of_not_mem val c _ _ h.1]
  exact h.2

/-- Witness of `spmc_retired_never_referenced`: consumer `1` is destroyed, then
another consumer subscribes and a value is broadcast. -/
theorem spmc_retired_never_referenced_witness :
    1 ∉ (run (consumer.destroy (run (new : spmc Nat) [call.rx, call.rx]) 1)
        [call.rx, call.dispatch 7, call.wait 3]).producer_.consumers_ :=
  (spmc_retired_never_referenced (run (new : spmc Nat) [call.rx, call.rx]) 1 (by decide)
    [call.rx, call.dispatch 7, call.wait 3]).1

/-- Every value pending on an object after a sequence of calls was pending
before or was broadcast by one of the calls. -/
theorem queue_run {α : Type} (c : Nat) (ops : List (call α)) :
    ∀ (t : spmc α) (o2 : consumer α), c < t.objects.length → deref (run t ops) c = some o2 →
      ∃ o, deref t c = some o ∧ ∀ v ∈ o2.queue_, v ∈ o.queue_ ∨ v ∈ broadcast_values ops := by
  induction ops with
  | nil => intro t o2 _ h; exact ⟨o2, h, fun v hv => Or.inl hv⟩
  | cons op rest ih =>
    intro t o2 hc h
    rw [run_cons] at h
    obtain ⟨o1, h1, h2⟩ := ih (step t op) o2 (Nat.lt_of_lt_of_le hc (step_length_le t op)) h
    obtain ⟨o, h3, h4⟩ := queue_step t op c hc o1 h1
    refine ⟨o, h3, fun v hv => ?_⟩
    rcases h2 v hv with h5 | h5
    · rcases h4 v h5 with h6 | h6
      · exact Or.inl h6
      · subst h6
        exact Or.inr (by simp [broadcast_values])
    · refine Or.inr ?_
      cases op <;> simp [broadcast_values, h5]

/-- C9. A late subscriber never sees earlier broadcasts: whatever state `s` the
channel is in and whatever calls `before`, broadcasts among them, are made
before `rx()`, the consumer that `rx()` returns has an empty queue, so a
`wait` on it right away returns nothing; and after any calls `later`, every
value pending on it, and so every value a `wait` on it returns, is a value
broadcast by one of the calls of `later`. -/
theorem spmc_late_subscriber {α : Type} (s : spmc α) (before later : List (call α)) :
    deref (rx (run s before)).2 (rx (run s before)).1 = some ⟨[]⟩
      ∧ (wait (rx (run s before)).2 (rx (run s before)).1).1 = none
      ∧ (∀ o, deref (run (rx (run s before)).2 later) (rx (run s before)).1 = some o →
          ∀ v ∈ o.queue_, v ∈ broadcast_values later)
      ∧ ∀ v, (wait (run (rx (run s before)).2 later) (rx (run s before)).1).1 = some v →
          v ∈ broadcast_values later := by
  have h0 : deref (rx (run s before)).2 (rx (run s before)).1 = some ⟨[]⟩ := by
    rw [deref_rx, rx_fst, if_pos rfl]
  have hlt : (rx (run s before)).1 < (rx (run s before)).2.objects.length := by
    rw [rx_fst, rx_objects]
    simp
  have hq : ∀ o, deref (run (rx (run s before)).2 later) (rx (run s before)).1 = some o →
      ∀ v ∈ o.queue_, v ∈ broadcast_values later := by
    intro o ho v hv
    obtain ⟨o1, h1, h2⟩ := queue_run _ later _ o hlt ho
    rw [h0] at h1
    simp only [Option.some.injEq] at h1
    subst h1
    rcases h2 v hv with h3 | h3
    · cases h3
    · exact h3
  refine ⟨h0, ?_, hq, ?_⟩
  · rw [wait_of_nil _ _ h0]
  · intro v hv
    rcases wait_cases (run (rx (run s before)).2 later) (rx (run s before)).1 with
      hw | ⟨x, q, hxq, hw⟩
    · rw [hw] at hv; cases hv
    · rw [hw] at hv
      simp only [Option.some.injEq] at hv
      subst hv
      exact hq _ hxq x (by simp)

/-- Witness of `spmc_late_subscriber`: `5` is broadcast to consumer `1`, then a
second consumer subscribes, `6` is broadcast, and the second consumer receives
`6`, a value broadcast after it subscribed. -/
theorem spmc_late_subscriber_witness :
    (wait (run (rx (run (new : spmc Nat) [call.rx, call.dispatch 5])).2 [call.dispatch 6])
        (rx (run (new : spmc Nat) [call.rx, call.dispatch 5])).1).1 = some 6
      ∧ 6 ∈ broadcast_values [(call.dispatch 6 : call Nat)] :=
  ⟨by decide,
   (spmc_late_subscriber (new : spmc Nat) [call.rx, call.dispatch 5] [call.dispatch 6]).2.2.2 6
    (by decide)⟩

end spmc

/-- C10. Receive yields a value exactly when the queue is non-empty, for
`mpsc::consumer::wait` and for `spmc::consumer::wait` alike: the call never runs
`front()` or `pop_front()` on an empty queue; it returns a value if and only if
the queue is non-empty; the value returned is the head of the queue and the
queue afterwards is the former queue without its head; on an empty queue the
call stays blocked and the channel is left as it was. -/
theorem wait_iff_nonempty {α : Type} (q : List α) :
    (mpsc.consumer.wait ⟨q⟩ ≠ wait_result.undefined
        ∧ ((∃ v c, mpsc.consumer.wait ⟨q⟩ = wait_result.value v c) ↔ q ≠ [])
        ∧ (∀ v c, mpsc.consumer.wait ⟨q⟩ = wait_result.value v c →
            q.head? = some v ∧ c.queue_ = q.tail ∧ q = v :: c.queue_)
        ∧ (q = [] → mpsc.consumer.wait ⟨q⟩ = wait_result.blocked
            ∧ ∀ st : List α → α → List α,
                mpsc.exec st ⟨⟨q⟩⟩ [mpsc.call.wait] = ([none], ⟨⟨q⟩⟩)))
      ∧ (spmc.consumer.wait ⟨q⟩ ≠ wait_result.undefined
        ∧ ((∃ v c, spmc.consumer.wait ⟨q⟩ = wait_result.value v c) ↔ q ≠ [])
        ∧ (∀ v c, spmc.consumer.wait ⟨q⟩ = wait_result.value v c →
            q.head? = some v ∧ c.queue_ = q.tail ∧ q = v :: c.queue_)
        ∧ (q = [] → spmc.consumer.wait ⟨q⟩ = wait_result.blocked
            ∧ ∀ (s : spmc α) (c : Nat), spmc.deref s c = some ⟨q⟩ →
                spmc.wait s c = (none, s))) := by
  cases q with
  | nil =>
    refine ⟨⟨?_, ?_, ?_, ?_⟩, ⟨?_, ?_, ?_, ?_⟩⟩
    · intro h; cases h
    · constructor
      · rintro ⟨v, c, h⟩; cases h
      · intro h; exact absurd rfl h
    · intro v c h; cases h
    · intro _; exact ⟨rfl, fun _ => rfl⟩
    · intro h; cases h
    · constructor
      · rintro ⟨v, c, h⟩; cases h
      · intro h; exact absurd rfl h
    · intro v c h; cases h
    · intro _; exact ⟨rfl, fun s c h => spmc.wait_of_nil s c h⟩
  | cons x q =>
    refine ⟨⟨?_, ?_, ?_, ?_⟩, ⟨?_, ?_, ?_, ?_⟩⟩
    · intro h; cases h
    · constructor
      · intro _; exact List.cons_ne_nil x q
      · intro _; exact ⟨x, ⟨q⟩, rfl⟩
    · intro v c h
      have h2 : wait_result.value x (⟨q⟩ : mpsc.consumer α) = wait_result.value v c := h
      cases h2
      exact ⟨rfl, rfl, rfl⟩
    · intro h; cases h
    · intro h; cases h
    · constructor
      · intro _; exact List.cons_ne_nil x q
      · intro _; exact ⟨x, ⟨q⟩, rfl⟩
    · intro v c h
      have h2 : wait_result.value x (⟨q⟩ : spmc.consumer α) = wait_result.value v c := h
      cases h2
      exact ⟨rfl, rfl, rfl⟩
    · intro h; cases h

/-- Witness of `wait_iff_nonempty`: on the queue `[4, 5]` both `wait`s return
`4` and leave `[5]`. -/
theorem wait_iff_nonempty_witness :
    ([4, 5] : List Nat).head? = some 4
      ∧ (⟨[5]⟩ : mpsc.consumer Nat).queue_ = ([4, 5] : List Nat).tail
      ∧ ([4, 5] : List Nat) = 4 :: (⟨[5]⟩ : mpsc.consumer Nat).queue_ :=
  (wait_iff_nonempty ([4, 5] : List Nat)).1.2.2.1 4 ⟨[5]⟩ rfl

/-! ## Independence of broadcast consumers -/

namespace spmc

theorem wait_fst {α : Type} (s : spmc α) (c : Nat) :
    (wait s c).1 = (deref s c).bind (fun o => o.queue_.head?) := by
  rcases wait_cases s c with h | ⟨x, q, hq, h⟩
  · rw [h]
    cases hd : deref s c with
    | none => rfl
    | some o =>
      obtain ⟨q⟩ := o
      cases q with
      | nil => rfl
      | cons x q =>
        rw [wait_of_cons s c x q hd] at h
        cases h
  · rw [h, hq]
    rfl

theorem deref_wait_self {α : Type} (s : spmc α) (c : Nat) :
    deref (wait s c).2 c = (deref s c).map (fun o => ⟨o.queue_.tail⟩) := by
  cases hd : deref s c with
  | none => rw [wait_of_none s c hd, hd]; rfl
  | some o =>
    obtain ⟨q⟩ := o
    cases q with
    | nil => rw [wait_of_nil s c hd, hd]; rfl
    | cons x q =>
      have hlt := lt_of_deref_eq_some s c _ hd
      rw [wait_of_cons s c x q hd]
      simp [assign, deref_set, hlt]

/-- What `n` receives on an object return depends on that object alone. -/
theorem wait_n_congr {α : Type} (c : Nat) (n : Nat) :
    ∀ t u : spmc α, deref t c = deref u c → (wait_n n t c).1 = (wait_n n u c).1 := by
  induction n with
  | zero => intro t u _; rfl
  | succ n ih =>
    intro t u h
    have h1 : (wait t c).1 = (wait u c).1 := by rw [wait_fst, wait_fst, h]
    have h2 : deref (wait t c).2 c = deref (wait u c).2 c := by
      rw [deref_wait_self, deref_wait_self, h]
    simp only [wait_n, h1, ih _ _ h2]

theorem isSome_deref_dispatch {α : Type} (val : α) (d : Nat) (l : List Nat) :
    ∀ s : spmc α, (deref (l.foldl (enqueue_at val) s) d).isSome = (deref s d).isSome := by
  induction l with
  | nil => intro s; rfl
  | cons c l ih => intro s; rw [List.foldl_cons, ih, isSome_deref_enqueue_at]

theorem deref_dispatch_congr {α : Type} (val : α) (b : Nat) (l : List Nat) :
    ∀ t u : spmc α, deref t b = deref u b →
      deref (l.foldl (enqueue_at val) t) b = deref (l.foldl (enqueue_at val) u) b := by
  induction l with
  | nil => intro t u h; exact h
  | cons c l ih =>
    intro t u h
    rw [List.foldl_cons, List.foldl_cons]
    apply ih
    rw [deref_enqueue_at, deref_enqueue_at]
    by_cases hbc : b = c
    · subst hbc
      rw [if_pos rfl, if_pos rfl, h]
    · rw [if_neg hbc, if_neg hbc, h]

theorem rx_producer {α : Type} (s : spmc α) :
    (rx s).2.producer_
      = (((s.producer_.adopt s.objects.length).adopt s.objects.length).adopt
          (s.objects.length + 1)).remove s.objects.length := by
  simp [rx, consumer.construct, consumer.move, consumer.destroy]

theorem agree_on_refl {α : Type} (b : Nat) (t : spmc α) : agree_on b t t :=
  ⟨rfl, rfl, fun _ => rfl, rfl⟩

/-- The same call keeps two channels the same from an object that exists. -/
theorem agree_on_step {α : Type} (b : Nat) (t u : spmc α) (op : call α)
    (hb : b < t.objects.length) (h : agree_on b t u) :
    agree_on b (step t op) (step u op) := by
  obtain ⟨hp, hl, hs, hd⟩ := h
  have hne : ¬ b = t.objects.length := Nat.ne_of_lt hb
  have hderef : ∀ d, (t.objects[d]?).getD none = deref t d := fun _ => rfl
  have hderefu : ∀ d, (u.objects[d]?).getD none = deref u d := fun _ => rfl
  have push : ∀ (p : producer) (o o2 : consumer α),
      agree_on b ⟨p, t.objects ++ [some o]⟩ ⟨p, u.objects ++ [some o2]⟩ := by
    intro p o o2
    refine ⟨rfl, by simp [hl], fun d => ?_, ?_⟩
    · rw [deref_push, deref_push, ← hl, hderef, hderefu]
      by_cases h1 : d = t.objects.length
      · simp [h1]
      · simp [h1, hs d]
    · rw [deref_push, deref_push, ← hl, if_neg hne, if_neg hne, hderef, hderefu, hd]
  cases op with
  | rx =>
    refine ⟨?_, ?_, fun d => ?_, ?_⟩
    · simp only [step, rx_producer, hp, hl]
    · simp [step, rx_objects, hl]
    · simp only [step, deref_rx, ← hl]
      by_cases h1 : d = t.objects.length + 1
      · simp [h1]
      · by_cases h2 : d = t.objects.length
        · simp [h2]
        · simp [h1, h2, hs d]
    · have h1 : ¬ b = t.objects.length + 1 := by omega
      simp only [step, deref_rx, ← hl, if_neg h1, if_neg hne, hd]
  | destroy c =>
    refine ⟨?_, ?_, fun d => ?_, ?_⟩
    · simp only [step, consumer.destroy, hp]
    · simp [step, consumer.destroy, hl]
    · simp only [step, deref_destroy]
      by_cases h1 : d = c
      · simp [h1]
      · simp [h1, hs d]
    · simp only [step, deref_destroy, hd]
  | dispatch val =>
    refine ⟨?_, ?_, fun d => ?_, ?_⟩
    · simp only [step, producer.dispatch, dispatch_producer, hp]
    · simp only [step, producer.dispatch, dispatch_length, hl]
    · simp only [step, producer.dispatch, isSome_deref_dispatch, hs d]
    · simp only [step, producer.dispatch, hp]
      exact deref_dispatch_congr val b _ t u hd
  | wait c =>
    refine ⟨?_, ?_, fun d => ?_, ?_⟩
    · simp only [step, wait_producer, hp]
    · simp only [step, wait_length, hl]
    · simp only [step, isSome_deref_wait, hs d]
    · simp only [step]
      by_cases h1 : b = c
      · subst h1
        rw [deref_wait_self, deref_wait_self, hd]
      · rw [deref_wait t c b h1, deref_wait u c b h1, hd]
  | copy other =>
    simp only [step, consumer.copy]
    have h1 := hs other
    cases ht : deref t other with
    | none =>
      rw [ht] at h1
      cases hu : deref u other with
      | none => exact ⟨hp, hl, hs, hd⟩
      | some o => rw [hu] at h1; cases h1
    | some o =>
      rw [ht] at h1
      cases hu : deref u other with
      | none => rw [hu] at h1; cases h1
      | some o2 =>
        simp only [← hl, ← hp]
        exact push _ _ _
  | move other =>
    simp only [step, consumer.move]
    have h1 := hs other
    cases ht : deref t other with
    | none =>
      rw [ht] at h1
      cases hu : deref u other with
      | none => exact ⟨hp, hl, hs, hd⟩
      | some o => rw [hu] at h1; cases h1
    | some o =>
      rw [ht] at h1
      cases hu : deref u other with
      | none => rw [hu] at h1; cases h1
      | some o2 =>
        simp only [← hl, ← hp]
        exact push _ _ _

/-- A receive on another object keeps two channels the same from `b`. -/
theorem agree_on_wait_left {α : Type} (a b : Nat) (t u : spmc α) (hab : a ≠ b)
    (h : agree_on b t u) : agree_on b (wait t a).2 u := by
  obtain ⟨hp, hl, hs, hd⟩ := h
  refine ⟨?_, ?_, fun d => ?_, ?_⟩
  · rw [wait_producer, hp]
  · rw [wait_length, hl]
  · rw [isSome_deref_wait, hs d]
  · rw [deref_wait t a b (fun e => hab e.symm), hd]

theorem agree_on_run {α : Type} (a b : Nat) (hab : a ≠ b) (ops : List (call α)) :
    ∀ t u : spmc α, b < t.objects.length → agree_on b t u →
      agree_on b (run t ops) (run u (drop_waits a ops)) := by
  induction ops with
  | nil => intro t u _ h; exact h
  | cons op rest ih =>
    intro t u hb h
    have hb2 : b < (step t op).objects.length := Nat.lt_of_lt_of_le hb (step_length_le t op)
    have both : agree_on b (run t (op :: rest)) (run u (op :: drop_waits a rest)) := by
      rw [run_cons, run_cons]
      exact ih _ _ hb2 (agree_on_step b t u op hb h)
    cases op with
    | wait c =>
      by_cases hc : c = a
      · subst hc
        simp only [drop_waits, if_true]
        rw [run_cons]
        exact ih _ _ hb2 (agree_on_wait_left c b t u hab h)
      · simp only [drop_waits, if_neg hc]
        exact both
    | rx => exact both
    | destroy c => exact both
    | dispatch val => exact both
    | copy other => exact both
    | move other => exact both

/-- C11. Broadcast consumers are independent: for two distinct consumers `a` and
`b` of a producer, `b` being an object that was constructed, a `wait` on `a`
leaves the registry and every object other than `a` as they were, so `b`
receives the same values after it as without it; and over any sequence of
calls, the object behind `b`, the registry and the values `b` then receives
are the same as when the `wait` calls on `a` are left out of the sequence. -/
theorem spmc_consumers_independent {α : Type} (s : spmc α) (a b : Nat) (hab : a ≠ b)
    (hb : b < s.objects.length) (ops : List (call α)) (n : Nat) :
    (wait s a).2.producer_ = s.producer_
      ∧ (∀ d, d ≠ a → deref (wait s a).2 d = deref s d)
      ∧ (wait_n n (wait s a).2 b).1 = (wait_n n s b).1
      ∧ deref (run s ops) b = deref (run s (drop_waits a ops)) b
      ∧ (run s ops).producer_ = (run s (drop_waits a ops)).producer_
      ∧ (wait_n n (run s ops) b).1 = (wait_n n (run s (drop_waits a ops)) b).1 := by
  have h := agree_on_run a b hab ops s s hb (agree_on_refl b s)
  have hba : b ≠ a := fun e => hab e.symm
  exact ⟨wait_producer s a, fun d hd => deref_wait s a d hd,
    wait_n_congr b n _ _ (deref_wait s a b hba), h.2.2.2, h.1, wait_n_congr b n _ _ h.2.2.2⟩

/-- Witness of `spmc_consumers_independent`: consumers `1` and `3`; `3` receives
`[6, 5]` whether or not `1` receives in between the broadcasts. -/
theorem spmc_consumers_independent_witness :
    (wait_n 2 (run (run (new : spmc Nat) [call.rx, call.rx])
        [call.dispatch 5, call.wait 1, call.dispatch 6, call.wait 1]) 3).1
      = (wait_n 2 (run (run (new : spmc Nat) [call.rx, call.rx])
        (drop_waits 1 [call.dispatch 5, call.wait 1, call.dispatch 6, call.wait 1])) 3).1 :=
  (spmc_consumers_independent (run (new : spmc Nat) [call.rx, call.rx]) 1 3 (by decide)
    (by decide) [call.dispatch 5, call.wait 1, call.dispatch 6, call.wait 1] 2).2.2.2.2.2

end spmc

/-! ## The two insert iterators -/

namespace mpsc

theorem exec_send_all {α : Type} (st : List α → α → List α) (vals : List α)
    (rest : List (call α)) :
    ∀ q : List α, exec st ⟨⟨q⟩⟩ (send_all vals ++ rest) = exec st ⟨⟨vals.foldl st q⟩⟩ rest := by
  induction vals with
  | nil => intro q; rfl
  | cons v vals ih =>
    intro q
    have e : send_all (v :: vals) ++ rest = call.dispatch 0 v :: (send_all vals ++ rest) := rfl
    rw [e, exec_dispatch, ih, List.foldl_cons]

theorem exec_wait_all {α : Type} (st : List α → α → List α) :
    ∀ q : List α, (exec st ⟨⟨q⟩⟩ (wait_all q.length)).1 = q.map some := by
  intro q
  induction q with
  | nil => rfl
  | cons x q ih =>
    have e : (wait_all (x :: q).length : List (call α)) = call.wait :: wait_all q.length := rfl
    rw [e, exec_wait_cons, List.map_cons, ih]

theorem foldl_back_insert {α : Type} (vals : List α) :
    ∀ q : List α, vals.foldl back_insert_iterator q = q ++ vals := by
  induction vals with
  | nil => intro q; simp
  | cons v vals ih =>
    intro q
    rw [List.foldl_cons, ih]
    simp [back_insert_iterator, deque.push_back]

theorem foldl_front_insert {α : Type} (vals : List α) :
    ∀ q : List α, vals.foldl front_insert_iterator q = vals.reverse ++ q := by
  induction vals with
  | nil => intro q; simp
  | cons v vals ih =>
    intro q
    rw [List.foldl_cons, ih]
    simp [front_insert_iterator, deque.push_front]

/-- The receives after sending `vals` through a back-insert iterator. -/
theorem exec_back_insert {α : Type} (vals : List α) :
    (exec back_insert_iterator new (send_all vals ++ wait_all vals.length)).1
      = vals.map some := by
  have h := exec_send_all back_insert_iterator vals (wait_all vals.length) []
  rw [foldl_back_insert, List.nil_append] at h
  have h2 : exec back_insert_iterator new (send_all vals ++ wait_all vals.length)
      = exec back_insert_iterator ⟨⟨vals⟩⟩ (wait_all vals.length) := h
  rw [h2, exec_wait_all]

/-- The receives after sending `vals` through a front-insert iterator. -/
theorem exec_front_insert {α : Type} (vals : List α) :
    (exec front_insert_iterator new (send_all vals ++ wait_all vals.length)).1
      = vals.reverse.map some := by
  have h := exec_send_all front_insert_iterator vals (wait_all vals.length) []
  rw [foldl_front_insert, List.append_nil] at h
  have h2 : exec front_insert_iterator new (send_all vals ++ wait_all vals.length)
      = exec front_insert_iterator ⟨⟨vals.reverse⟩⟩ (wait_all vals.length) := h
  rw [h2]
  have h3 := exec_wait_all front_insert_iterator vals.reverse
  rw [List.length_reverse] at h3
  exact h3

/-- C12, as the header comment words it, fails.  With `1`, then `2` sent into an
empty queue, the front-insert iterator makes the two receives return `2`, then
`1`, which is not the send order, and the back-insert iterator makes them
return `1`, then `2`, which is not the reverse send order; and `jt::fifo` does
not insert as `std::front_insert_iterator` does, nor `jt::lifo` as
`std::back_insert_iterator` does. -/
theorem mpsc_header_naming_counterexample :
    (exec front_insert_iterator new (send_all [1, 2] ++ wait_all 2)).1 = [some 2, some 1]
      ∧ (exec front_insert_iterator new (send_all [1, 2] ++ wait_all 2)).1
          ≠ ([1, 2] : List Nat).map some
      ∧ (exec back_insert_iterator new (send_all [1, 2] ++ wait_all 2)).1 = [some 1, some 2]
      ∧ (exec back_insert_iterator new (send_all [1, 2] ++ wait_all 2)).1
          ≠ ([1, 2] : List Nat).reverse.map some
      ∧ fifo [1] 2 ≠ front_insert_iterator [1] 2
      ∧ lifo [1] 2 ≠ back_insert_iterator [1] 2 := by
  decide

/-- C12, amended.  The default strategy `jt::fifo` is `std::back_insert_iterator`
and gives first-in-first-out delivery, and `jt::lifo` is
`std::front_insert_iterator` and gives last-in-first-out delivery: for every
list of values sent into an empty queue, inserting each value with a
back-insert iterator makes the successive `wait` calls return them in send
order, and inserting with a front-insert iterator makes them return in reverse
send order. -/
theorem mpsc_strategy_naming {α : Type} (vals : List α) :
    (fifo : List α → α → List α) = back_insert_iterator
      ∧ (lifo : List α → α → List α) = front_insert_iterator
      ∧ (exec fifo new (send_all vals ++ wait_all vals.length)).1 = vals.map some
      ∧ (exec lifo new (send_all vals ++ wait_all vals.length)).1 = vals.reverse.map some
      ∧ (exec back_insert_iterator new (send_all vals ++ wait_all vals.length)).1
          = vals.map some
      ∧ (exec front_insert_iterator new (send_all vals ++ wait_all vals.length)).1
          = vals.reverse.map some :=
  ⟨rfl, rfl, exec_back_insert vals, exec_front_insert vals, exec_back_insert vals,
    exec_front_insert vals⟩

end mpsc

/-! ## Lock order -/

theorem held_states_acquire (held : List mutex) (m : mutex) (rest : List lock_event) :
    held_states held (lock_event.acquire m :: rest) = held :: held_states (m :: held) rest :=
  rfl

theorem held_states_release (held : List mutex) (m : mutex) (rest : List lock_event) :
    held_states held (lock_event.release m :: rest)
      = held :: held_states (held.erase m) rest :=
  rfl

theorem lock_edges_acquire (held : List mutex) (m : mutex) (rest : List lock_event) :
    lock_edges held (lock_event.acquire m :: rest)
      = held.map (fun h => (h, m)) ++ lock_edges (m :: held) rest :=
  rfl

theorem lock_edges_release (held : List mutex) (m : mutex) (rest : List lock_event) :
    lock_edges held (lock_event.release m :: rest) = lock_edges (held.erase m) rest :=
  rfl

theorem cv_wait_succ (m : mutex) (n : Nat) (tail : List lock_event) :
    cv_wait m (n + 1) ++ tail
      = lock_event.release m :: lock_event.acquire m :: (cv_wait m n ++ tail) :=
  rfl

theorem dispatch_events_cons (c : Nat) (l : List Nat) (tail : List lock_event) :
    ((c :: l).map spmc.consumer.enqueue_events).flatten ++ tail
      = lock_event.acquire (mutex.buffer c) :: lock_event.release (mutex.buffer c)
          :: ((l.map spmc.consumer.enqueue_events).flatten ++ tail) :=
  rfl

theorem held_states_cv_wait (m : mutex) (tail : List lock_event) (wakeups : Nat)
    (ht : ∀ h ∈ held_states [m] tail, h = [] ∨ h = [m]) :
    ∀ h ∈ held_states [m] (cv_wait m wakeups ++ tail), h = [] ∨ h = [m] := by
  induction wakeups with
  | zero => exact ht
  | succ n ih =>
    intro h hh
    rw [cv_wait_succ, held_states_release, held_states_acquire, List.erase_cons_head] at hh
    simp only [List.mem_cons] at hh
    rcases hh with hh | hh | hh
    · exact Or.inr hh
    · exact Or.inl hh
    · exact ih h hh

theorem lock_edges_cv_wait (m : mutex) (tail : List lock_event) (wakeups : Nat)
    (ht : lock_edges [m] tail = []) :
    lock_edges [m] (cv_wait m wakeups ++ tail) = [] := by
  induction wakeups with
  | zero => exact ht
  | succ n ih =>
    rw [cv_wait_succ, lock_edges_release, lock_edges_acquire, List.erase_cons_head]
    simpa using ih

theorem held_states_dispatch (l : List Nat) :
    ∀ h ∈ held_states [mutex.registry]
        ((l.map spmc.consumer.enqueue_events).flatten ++ [lock_event.release mutex.registry]),
      h = [] ∨ h = [mutex.registry] ∨ ∃ c, h = [mutex.buffer c, mutex.registry] := by
  induction l with
  | nil =>
    intro h hh
    have e : held_states [mutex.registry]
        ((([] : List Nat).map spmc.consumer.enqueue_events).flatten
          ++ [lock_event.release mutex.registry]) = [[mutex.registry], []] := by decide
    rw [e] at hh
    simp only [List.mem_cons, List.mem_singleton, List.not_mem_nil, or_false] at hh
    rcases hh with hh | hh
    · exact Or.inr (Or.inl hh)
    · exact Or.inl hh
  | cons c l ih =>
    intro h hh
    rw [dispatch_events_cons, held_states_acquire, held_states_release,
      List.erase_cons_head] at hh
    simp only [List.mem_cons] at hh
    rcases hh with hh | hh | hh
    · exact Or.inr (Or.inl hh)
    · exact Or.inr (Or.inr ⟨c, hh⟩)
    · exact ih h hh

theorem lock_edges_dispatch (l : List Nat) :
    lock_edges [mutex.registry]
        ((l.map spmc.consumer.enqueue_events).flatten ++ [lock_event.release mutex.registry])
      = l.map (fun c => (mutex.registry, mutex.buffer c)) := by
  induction l with
  | nil => rfl
  | cons c l ih =>
    rw [dispatch_events_cons, lock_edges_acquire, lock_edges_release, List.erase_cons_head, ih]
    rfl

/-- Whatever an operation takes while it holds a mutex, it holds the registry
lock and takes a buffer lock. -/
theorem lock_edges_operation (op : operation) :
    ∀ e ∈ lock_edges [] op.events, e.1 = mutex.registry ∧ e.2.is_buffer = true := by
  cases op with
  | spmc_dispatch l =>
    intro e he
    have h1 : lock_edges [] (operation.spmc_dispatch l).events
        = l.map (fun c => (mutex.registry, mutex.buffer c)) := lock_edges_dispatch l
    rw [h1, List.mem_map] at he
    obtain ⟨c, _, rfl⟩ := he
    exact ⟨rfl, rfl⟩
  | spmc_wait c k =>
    intro e he
    have h1 : lock_edges [] (operation.spmc_wait c k).events = [] :=
      lock_edges_cv_wait (mutex.buffer c) [lock_event.release (mutex.buffer c)] k rfl
    rw [h1] at he
    cases he
  | mpsc_wait k =>
    intro e he
    have h1 : lock_edges [] (operation.mpsc_wait k).events = [] :=
      lock_edges_cv_wait mutex.queue [lock_event.release mutex.queue] k rfl
    rw [h1] at he
    cases he
  | spmc_enqueue c =>
    intro e he
    have h1 : lock_edges [] (operation.spmc_enqueue c).events = [] := rfl
    rw [h1] at he
    cases he
  | spmc_adopt => decide
  | spmc_remove => decide
  | spmc_construct => decide
  | spmc_copy => decide
  | spmc_move => decide
  | spmc_destroy => decide
  | spmc_rx => decide
  | mpsc_enqueue => decide
  | mpsc_dispatch => decide

theorem held_states_release_one (m : mutex) :
    ∀ h ∈ held_states [m] [lock_event.release m], h = [] ∨ h = [m] := by
  intro h hh
  rw [held_states_release, List.erase_cons_head] at hh
  have e : held_states [] ([] : List lock_event) = [[]] := rfl
  rw [e] at hh
  simp only [List.mem_cons, List.mem_singleton, List.not_mem_nil, or_false] at hh
  rcases hh with hh | hh
  · exact Or.inr hh
  · exact Or.inl hh

/-- At no point of an operation are two buffer locks held. -/
theorem held_states_operation (op : operation) :
    ∀ h ∈ held_states [] op.events, (h.filter mutex.is_buffer).length ≤ 1 := by
  have one : ∀ m : mutex, ([m].filter mutex.is_buffer).length ≤ 1 := fun m =>
    Nat.le_trans (List.length_filter_le _ _) (Nat.le_refl 1)
  cases op with
  | spmc_dispatch l =>
    intro h hh
    have h1 : held_states [] (operation.spmc_dispatch l).events
        = [] :: held_states [mutex.registry]
            ((l.map spmc.consumer.enqueue_events).flatten
              ++ [lock_event.release mutex.registry]) := rfl
    rw [h1, List.mem_cons] at hh
    rcases hh with hh | hh
    · rw [hh]; exact Nat.zero_le 1
    · rcases held_states_dispatch l h hh with h2 | h2 | ⟨c, h2⟩
      · rw [h2]; exact Nat.zero_le 1
      · rw [h2]; exact one _
      · rw [h2]; exact Nat.le_refl 1
  | spmc_wait c k =>
    intro h hh
    have h1 : held_states [] (operation.spmc_wait c k).events
        = [] :: held_states [mutex.buffer c]
            (cv_wait (mutex.buffer c) k ++ [lock_event.release (mutex.buffer c)]) := rfl
    rw [h1, List.mem_cons] at hh
    rcases hh with hh | hh
    · rw [hh]; exact Nat.zero_le 1
    · rcases held_states_cv_wait _ _ k (held_states_release_one _) h hh with h2 | h2
      · rw [h2]; exact Nat.zero_le 1
      · rw [h2]; exact one _
  | mpsc_wait k =>
    intro h hh
    have h1 : held_states [] (operation.mpsc_wait k).events
        = [] :: held_states [mutex.queue]
            (cv_wait mutex.queue k ++ [lock_event.release mutex.queue]) := rfl
    rw [h1, List.mem_cons] at hh
    rcases hh with hh | hh
    · rw [hh]; exact Nat.zero_le 1
    · rcases held_states_cv_wait _ _ k (held_states_release_one _) h hh with h2 | h2
      · rw [h2]; exact Nat.zero_le 1
      · rw [h2]; exact one _
  | spmc_enqueue c =>
    intro h hh
    have h1 : held_states [] (operation.spmc_enqueue c).events
        = [] :: held_states [mutex.buffer c] [lock_event.release (mutex.buffer c)] := rfl
    rw [h1, List.mem_cons] at hh
    rcases hh with hh | hh
    · rw [hh]; exact Nat.zero_le 1
    · rcases held_states_release_one _ h hh with h2 | h2
      · rw [h2]; exact Nat.zero_le 1
      · rw [h2]; exact one _
  | spmc_adopt => decide
  | spmc_remove => decide
  | spmc_construct => decide
  | spmc_copy => decide
  | spmc_move => decide
  | spmc_destroy => decide
  | spmc_rx => decide
  | mpsc_enqueue => decide
  | mpsc_dispatch => decide

/-- C13. Fixed lock order: over the lock events of every channel operation
(`spmc` `adopt`, `remove`, `dispatch`, consumer construction, copy, move and
destruction, `enqueue`, `wait`, `rx`; `mpsc` `enqueue`, `dispatch`, `wait`), no
operation takes the registry lock while it holds a buffer lock, and no
operation holds two buffer locks at the same time: the only thing an operation
takes while holding a mutex is a buffer lock under the registry lock.
Therefore no cycle of lock waits can be formed from what the operations hold
and wait for. -/
theorem lock_order_fixed (op : operation) :
    (∀ e ∈ lock_edges [] op.events, ¬ (e.1.is_buffer = true ∧ e.2 = mutex.registry))
      ∧ (∀ e ∈ lock_edges [] op.events, ¬ (e.1.is_buffer = true ∧ e.2.is_buffer = true))
      ∧ (∀ h ∈ held_states [] op.events, (h.filter mutex.is_buffer).length ≤ 1)
      ∧ (∀ e ∈ lock_edges [] op.events, e.1 = mutex.registry ∧ e.2.is_buffer = true)
      ∧ ∀ es : List (mutex × mutex),
          (∀ e ∈ es, ∃ o : operation, e ∈ lock_edges [] o.events) → ¬ lock_cycle es := by
  refine ⟨?_, ?_, held_states_operation op, lock_edges_operation op, ?_⟩
  · intro e he h
    have h1 := (lock_edges_operation op e he).1
    rw [h1] at h
    exact absurd h.1 (by decide)
  · intro e he h
    have h1 := (lock_edges_operation op e he).1
    rw [h1] at h
    exact absurd h.1 (by decide)
  · intro es hes hc
    obtain ⟨hne, _, hring⟩ := hc
    cases es with
    | nil => exact hne rfl
    | cons e es =>
      obtain ⟨o1, ho1⟩ := hes e (by simp)
      have hfirst := (lock_edges_operation o1 e ho1).1
      have hl : (e :: es).getLast? = some ((e :: es).getLast (List.cons_ne_nil e es)) :=
        List.getLast?_eq_getLast _ _
      obtain ⟨o2, ho2⟩ := hes ((e :: es).getLast (List.cons_ne_nil e es))
        (List.getLast_mem _)
      have hlast := (lock_edges_operation o2 _ ho2).2
      rw [hl] at hring
      simp only [Option.map_some', List.head?_cons, Option.some.injEq] at hring
      rw [hring, hfirst] at hlast
      exact absurd hlast (by decide)

/-- Witness of `lock_order_fixed`: a broadcast to the consumers `1` and `3`
takes each buffer lock under the registry lock; the one pair it contributes
forms no cycle. -/
theorem lock_order_fixed_witness :
    lock_edges [] (operation.spmc_dispatch [1, 3]).events
        = [(mutex.registry, mutex.buffer 1), (mutex.registry, mutex.buffer 3)]
      ∧ ¬ lock_cycle [(mutex.registry, mutex.buffer 1)] :=
  ⟨by decide,
   (lock_order_fixed (operation.spmc_dispatch [1, 3])).2.2.2.2
    [(mutex.registry, mutex.buffer 1)]
    (fun e he => ⟨operation.spmc_dispatch [1, 3], by
      simp only [List.mem_singleton] at he
      rw [he]
      decide⟩)⟩

/-! ## The registry invariant, moving and copying consumers -/

namespace spmc

/-- C14. Registry invariant: in every state reached from a fresh `spmc` channel
through complete calls of `rx()`, consumer copy construction, consumer move
construction, consumer destruction, `dispatch` and `wait`, the registry has no
pointer twice, holds a pointer exactly when a live consumer is behind it, and
so holds every live consumer exactly once and no other pointer at all. -/
theorem spmc_registry_invariant {α : Type} (ops : List (call α)) :
    (run (new : spmc α) ops).producer_.consumers_.Nodup
      ∧ (∀ c, c ∈ (run (new : spmc α) ops).producer_.consumers_
          ↔ (deref (run (new : spmc α) ops) c).isSome = true)
      ∧ (∀ c, (deref (run (new : spmc α) ops) c).isSome = true →
          (run (new : spmc α) ops).producer_.consumers_.count c = 1)
      ∧ (∀ c, deref (run (new : spmc α) ops) c = none →
          (run (new : spmc α) ops).producer_.consumers_.count c = 0) := by
  have h : wf (run (new : spmc α) ops) := wf_run ops new wf_new
  refine ⟨h.1, h.2, ?_, ?_⟩
  · intro c hc
    exact List.count_eq_one_of_mem h.1 ((h.2 c).mpr hc)
  · intro c hc
    rw [List.count_eq_zero]
    intro hm
    have := (h.2 c).mp hm
    rw [hc] at this
    cases this

/-- Witness of `spmc_registry_invariant`: after a subscription, a copy, a move
and the destruction of the first consumer, the registry holds the copy and
the moved-to consumer once each, and the destroyed consumer no more. -/
theorem spmc_registry_invariant_witness :
    (run (new : spmc Nat) [call.rx, call.dispatch 4, call.copy 1, call.move 1,
        call.destroy 1]).producer_.consumers_ = [2, 3]
      ∧ (run (new : spmc Nat) [call.rx, call.dispatch 4, call.copy 1, call.move 1,
        call.destroy 1]).producer_.consumers_.count 2 = 1
      ∧ (run (new : spmc Nat) [call.rx, call.dispatch 4, call.copy 1, call.move 1,
        call.destroy 1]).producer_.consumers_.count 1 = 0 :=
  ⟨by decide,
   (spmc_registry_invariant [call.rx, call.dispatch 4, call.copy 1, call.move 1,
      call.destroy 1]).2.2.1 2 (by decide),
   (spmc_registry_invariant [call.rx, call.dispatch 4, call.copy 1, call.move 1,
      call.destroy 1]).2.2.2 1 (by decide)⟩

/-- C15. Moving a broadcast consumer drops its backlog: for every live consumer
`c` with pending values `q`, the consumer built by the move constructor from
`c` is a new object, registered with the producer, with an empty queue, so a
`wait` on it returns nothing; `c` keeps `q`.  Once `c` is destroyed, after any
further calls no object is behind `c`, a `wait` on `c` returns nothing, and
all the new consumer holds or receives was broadcast by those further calls:
the values of `q` are not received through either of the two. -/
theorem spmc_move_drops_backlog {α : Type} (s : spmc α) (c : Nat) (q : List α)
    (h : deref s c = some ⟨q⟩) (later : List (call α)) :
    (consumer.move s c).1 ≠ c
      ∧ deref (consumer.move s c).2 (consumer.move s c).1 = some ⟨[]⟩
      ∧ (consumer.move s c).2.producer_.consumers_
          = s.producer_.consumers_ ++ [(consumer.move s c).1]
      ∧ deref (consumer.move s c).2 c = some ⟨q⟩
      ∧ (wait (consumer.move s c).2 (consumer.move s c).1).1 = none
      ∧ deref (run (consumer.destroy (consumer.move s c).2 c) later) c = none
      ∧ (wait (run (consumer.destroy (consumer.move s c).2 c) later) c).1 = none
      ∧ (∀ o, deref (run (consumer.destroy (consumer.move s c).2 c) later)
            (consumer.move s c).1 = some o → ∀ v ∈ o.queue_, v ∈ broadcast_values later)
      ∧ ∀ v, (wait (run (consumer.destroy (consumer.move s c).2 c) later)
            (consumer.move s c).1).1 = some v → v ∈ broadcast_values later := by
  have hc : c < s.objects.length := lt_of_deref_eq_some s c _ h
  have hne : (consumer.move s c).1 ≠ c := by
    show s.objects.length ≠ c
    omega
  have hnew : deref (consumer.move s c).2 (consumer.move s c).1 = some ⟨[]⟩ := by
    simp only [consumer.move, deref_push, if_true]
  have hold : deref (consumer.move s c).2 c = some ⟨q⟩ := by
    simp only [consumer.move, deref_push, if_neg (Nat.ne_of_lt hc)]
    exact h
  have hgone := retired_run c later (consumer.destroy (consumer.move s c).2 c)
    (by simp [consumer.destroy, consumer.move]; omega)
    (by
      show c ∉ ((consumer.move s c).2.producer_.remove c).consumers_
      rw [remove_consumers]
      simp)
    (by rw [deref_destroy, if_pos rfl])
  have hq : ∀ o, deref (run (consumer.destroy (consumer.move s c).2 c) later)
      (consumer.move s c).1 = some o → ∀ v ∈ o.queue_, v ∈ broadcast_values later := by
    intro o ho v hv
    obtain ⟨o1, h1, h2⟩ := queue_run (consumer.move s c).1 later
      (consumer.destroy (consumer.move s c).2 c) o
      (by simp [consumer.destroy, consumer.move]) ho
    rw [deref_destroy, if_neg hne, hnew] at h1
    simp only [Option.some.injEq] at h1
    subst h1
    rcases h2 v hv with h3 | h3
    · cases h3
    · exact h3
  refine ⟨hne, hnew, rfl, hold, ?_, hgone.2, ?_, hq, ?_⟩
  · rw [wait_of_nil _ _ hnew]
  · rw [wait_of_none _ _ hgone.2]
  · intro v hv
    rw [wait_fst] at hv
    cases ho : deref (run (consumer.destroy (consumer.move s c).2 c) later)
        (consumer.move s c).1 with
    | none => rw [ho] at hv; cases hv
    | some o =>
      rw [ho] at hv
      exact hq o ho v (List.mem_of_mem_head? hv)

/-- Witness of `spmc_move_drops_backlog`: consumer `1` holds `4`; the consumer
moved from it is `2` and holds nothing, and after `1` is destroyed and `9` is
broadcast it holds `9` alone. -/
theorem spmc_move_drops_backlog_witness :
    deref (consumer.move (run (new : spmc Nat) [call.rx, call.dispatch 4]) 1).2
        (consumer.move (run (new : spmc Nat) [call.rx, call.dispatch 4]) 1).1 = some ⟨[]⟩
      ∧ deref (run (consumer.destroy
          (consumer.move (run (new : spmc Nat) [call.rx, call.dispatch 4]) 1).2 1)
          [call.dispatch 9]) 2 = some ⟨[9]⟩ :=
  ⟨(spmc_move_drops_backlog (run (new : spmc Nat) [call.rx, call.dispatch 4]) 1 [4]
      (by decide) [call.dispatch 9]).2.1,
   by decide⟩

/-- What `n` receives return depends only on the object behind the pointer
they are made on. -/
theorem wait_n_congr_pointer {α : Type} (n : Nat) :
    ∀ (t u : spmc α) (c d : Nat), deref t c = deref u d →
      (wait_n n t c).1 = (wait_n n u d).1 := by
  induction n with
  | zero => intro t u c d _; rfl
  | succ n ih =>
    intro t u c d h
    have h1 : (wait t c).1 = (wait u d).1 := by rw [wait_fst, wait_fst, h]
    have h2 : deref (wait t c).2 c = deref (wait u d).2 d := by
      rw [deref_wait_self, deref_wait_self, h]
    simp only [wait_n, h1, ih _ _ c d h2]

/-- A registered consumer of a well-formed channel gets every broadcast value
once, the latest at the front. -/
theorem deref_dispatch_all {α : Type} (c : Nat) (vals : List α) :
    ∀ (t : spmc α) (q : List α), wf t → c ∈ t.producer_.consumers_ → deref t c = some ⟨q⟩ →
      deref (dispatch_all vals t) c = some ⟨vals.reverse ++ q⟩ := by
  induction vals with
  | nil => intro t q _ _ h; exact h
  | cons v vals ih =>
    intro t q hw hm h
    have h1 : deref (producer.dispatch v t) c = some ⟨v :: q⟩ := by
      unfold producer.dispatch
      rw [deref_dispatch_of_mem v c _ t hw.1 hm, h]
      rfl
    have h2 : c ∈ (producer.dispatch v t).producer_.consumers_ := by
      unfold producer.dispatch
      rw [dispatch_producer]
      exact hm
    have h3 := ih (producer.dispatch v t) (v :: q) (wf_dispatch t v hw) h2 h1
    have e : dispatch_all (v :: vals) t = dispatch_all vals (producer.dispatch v t) := rfl
    rw [e, h3]
    simp

/-- C16. Copying a broadcast consumer duplicates its backlog: in every state
reached from a fresh channel, for every live consumer `c` with pending values
`q`, the copy constructor builds a new object whose queue is `q`, registers it
with the producer behind the former entries, `c` among them, and leaves the
queue of `c` as it is; so any number of receives return the same values on
both, and after any further broadcasts both hold one copy of each broadcast
value on top of `q`. -/
theorem spmc_copy_duplicates_backlog {α : Type} (ops : List (call α)) (c : Nat) (q : List α)
    (h : deref (run (new : spmc α) ops) c = some ⟨q⟩) (n : Nat) (vals : List α) :
    ∃ r, consumer.copy (run (new : spmc α) ops) c = some r
      ∧ r.1 ≠ c
      ∧ r.1 ∉ (run (new : spmc α) ops).producer_.consumers_
      ∧ deref r.2 r.1 = some ⟨q⟩
      ∧ deref r.2 c = some ⟨q⟩
      ∧ r.2.producer_.consumers_ = (run (new : spmc α) ops).producer_.consumers_ ++ [r.1]
      ∧ c ∈ (run (new : spmc α) ops).producer_.consumers_
      ∧ (wait_n n r.2 r.1).1 = (wait_n n r.2 c).1
      ∧ deref (dispatch_all vals r.2) c = some ⟨vals.reverse ++ q⟩
      ∧ deref (dispatch_all vals r.2) r.1 = some ⟨vals.reverse ++ q⟩ := by
  have hw : wf (run (new : spmc α) ops) := wf_run ops new wf_new
  have hc : c < (run (new : spmc α) ops).objects.length := lt_of_deref_eq_some _ c _ h
  have hm : c ∈ (run (new : spmc α) ops).producer_.consumers_ := (hw.2 c).mpr (by rw [h]; rfl)
  have hw2 := wf_push (run (new : spmc α) ops) ⟨q⟩ hw
  have hnew : deref (⟨(run (new : spmc α) ops).producer_.adopt
        (run (new : spmc α) ops).objects.length,
      (run (new : spmc α) ops).objects ++ [some ⟨q⟩]⟩ : spmc α)
      (run (new : spmc α) ops).objects.length = some ⟨q⟩ := by
    rw [deref_push, if_pos rfl]
  have hold : deref (⟨(run (new : spmc α) ops).producer_.adopt
        (run (new : spmc α) ops).objects.length,
      (run (new : spmc α) ops).objects ++ [some ⟨q⟩]⟩ : spmc α) c = some ⟨q⟩ := by
    rw [deref_push, if_neg (Nat.ne_of_lt hc)]
    exact h
  refine ⟨((run (new : spmc α) ops).objects.length,
    ⟨(run (new : spmc α) ops).producer_.adopt (run (new : spmc α) ops).objects.length,
      (run (new : spmc α) ops).objects ++ [some ⟨q⟩]⟩), ?_, ?_, ?_, hnew, hold, rfl, hm, ?_, ?_, ?_⟩
  · simp only [consumer.copy, h]
  · show (run (new : spmc α) ops).objects.length ≠ c
    omega
  · intro hmem
    have := allocated_of_wf _ hw _ hmem
    omega
  · exact wait_n_congr_pointer n _ _ _ _ (hnew.trans hold.symm)
  · exact deref_dispatch_all c vals _ q hw2
      (by
        show c ∈ (run (new : spmc α) ops).producer_.consumers_
          ++ [(run (new : spmc α) ops).objects.length]
        exact List.mem_append_left _ hm)
      hold
  · exact deref_dispatch_all _ vals _ q hw2
      (by
        show (run (new : spmc α) ops).objects.length
          ∈ (run (new : spmc α) ops).producer_.consumers_
            ++ [(run (new : spmc α) ops).objects.length]
        simp)
      hnew

/-- Witness of `spmc_copy_duplicates_backlog`: consumer `1` holds `[5, 4]`; its
copy is consumer `2`, and after `9` is broadcast both hold `[9, 5, 4]`. -/
theorem spmc_copy_duplicates_backlog_witness :
    ∃ r, consumer.copy (run (new : spmc Nat) [call.rx, call.dispatch 4, call.dispatch 5]) 1
        = some r
      ∧ r.1 ≠ 1
      ∧ r.1 ∉ (run (new : spmc Nat) [call.rx, call.dispatch 4, call.dispatch 5]).producer_.consumers_
      ∧ deref r.2 r.1 = some ⟨[5, 4]⟩
      ∧ deref r.2 1 = some ⟨[5, 4]⟩
      ∧ r.2.producer_.consumers_
          = (run (new : spmc Nat) [call.rx, call.dispatch 4, call.dispatch 5]).producer_.consumers_
            ++ [r.1]
      ∧ 1 ∈ (run (new : spmc Nat) [call.rx, call.dispatch 4, call.dispatch 5]).producer_.consumers_
      ∧ (wait_n 3 r.2 r.1).1 = (wait_n 3 r.2 1).1
      ∧ deref (dispatch_all [9] r.2) 1 = some ⟨[9].reverse ++ [5, 4]⟩
      ∧ deref (dispatch_all [9] r.2) r.1 = some ⟨[9].reverse ++ [5, 4]⟩ :=
  spmc_copy_duplicates_backlog [call.rx, call.dispatch 4, call.dispatch 5] 1 [5, 4]
    (by decide) 3 [9]

end spmc

end jt
